import Mathlib

/-!
Verification of the PHI-redaction pipeline, the browser-action confirmation
state machine, and the internal document store of the hipaa-oss-llm service.

Strings are modelled as `List Char`.  Python `str.replace` (all occurrences,
left to right, non-overlapping) is `replaceAll`; the `re` scanning done by
`re.finditer` is modelled by a small backtracking regex engine that mirrors
Python's leftmost / first-alternative / greedy match discipline.
-/

namespace HipaaLLM

abbrev Str := List Char

/-- Word character in the sense of the regex `\b` assertion (`[A-Za-z0-9_]`,
ASCII fragment of Python `\w`). -/
def isWordChar (c : Char) : Bool :=
  c.isAlpha || c.isDigit || c = '_'

/-- Python `str.replace(x, r)`: replace every non-overlapping occurrence of
`x` by `r`, scanning left to right.  The sources only call it with a
non-empty `x` (a regex match), so the `x = []` case returns `s` unchanged. -/
def replaceAll (x r : Str) : Str → Str
  | [] => []
  | c :: s =>
    if h : x ≠ [] ∧ x.isPrefixOf (c :: s) then
      r ++ replaceAll x r ((c :: s).drop x.length)
    else
      c :: replaceAll x r s
termination_by s => s.length + 1
decreasing_by
  · simp only [List.length_drop, List.length_cons]
    have hx : 0 < x.length := List.length_pos.mpr h.1
    omega
  · simp

lemma replaceAll_nil (x r : Str) : replaceAll x r [] = [] := by
  rw [replaceAll]

/-- Join segments with a separator; `replaceAll x r s` is the `r`-join of the
`x`-split of `s`. -/
def joinSep (sep : Str) : List Str → Str
  | [] => []
  | [a] => a
  | a :: b :: t => a ++ sep ++ joinSep sep (b :: t)

lemma joinSep_cons₂ (sep a : Str) (b : Str) (t : List Str) :
    joinSep sep (a :: b :: t) = a ++ sep ++ joinSep sep (b :: t) := rfl

lemma joinSep_single (sep a : Str) : joinSep sep [a] = a := rfl

lemma mem_infix_joinSep {sep : Str} {L : List Str} {a : Str} (h : a ∈ L) :
    a <:+: joinSep sep L := by
  induction L with
  | nil => cases h
  | cons x t ih =>
    rcases List.mem_cons.mp h with rfl | h'
    · cases t with
      | nil => simpa [joinSep_single] using List.infix_rfl
      | cons b t' =>
        rw [joinSep_cons₂, List.append_assoc]
        exact (List.prefix_append a _).isInfix
    · cases t with
      | nil => cases h'
      | cons b t' =>
        rw [joinSep_cons₂]
        exact (ih h').trans (List.suffix_append _ _).isInfix

lemma sep_infix_joinSep {sep : Str} {a b : Str} {t : List Str} :
    sep <:+: joinSep sep (a :: b :: t) := by
  rw [joinSep_cons₂]
  exact ⟨a, joinSep sep (b :: t), rfl⟩

/-- An infix of `u ++ v` lies in `u`, lies in `v`, or straddles the border. -/
lemma infix_append_cases {w : Str} : ∀ {u v : Str}, w <:+: u ++ v →
    w <:+: u ∨ w <:+: v ∨
      ∃ w₁ w₂, w = w₁ ++ w₂ ∧ w₁ ≠ [] ∧ w₂ ≠ [] ∧ w₁ <:+ u ∧ w₂ <+: v := by
  intro u
  induction u with
  | nil =>
    intro v h
    right; left
    simpa using h
  | cons c u' ih =>
    intro v h
    rw [List.cons_append] at h
    rcases List.infix_cons_iff.mp h with hpre | hinf
    · by_cases hlen : w.length ≤ u'.length + 1
      · left
        have : w <+: c :: u' :=
          (List.isPrefix_append_of_length (by simpa using hlen)).mp (by simpa using hpre)
        exact this.isInfix
      · right; right
        push_neg at hlen
        obtain ⟨rest, hrest⟩ := hpre
        have htake : w.take (u'.length + 1) = c :: u' := by
          have h1 : (c :: (u' ++ v)).take (u'.length + 1) = c :: u' := by
            rw [← List.cons_append]
            exact List.take_left' (by simp)
          rw [← hrest, List.take_append_of_le_length (by omega)] at h1
          exact h1
        refine ⟨c :: u', w.drop (u'.length + 1), ?_, by simp, ?_, List.suffix_rfl, ?_⟩
        · conv_lhs => rw [← List.take_append_drop (u'.length + 1) w]
          rw [htake]
        · have : (w.drop (u'.length + 1)).length = w.length - (u'.length + 1) := by simp
          intro hnil
          rw [hnil] at this
          simp at this
          omega
        · have h4 : (c :: (u' ++ v)).drop (u'.length + 1) = v := by
            rw [← List.cons_append]
            exact List.drop_left' (by simp)
          rw [← hrest, List.drop_append_of_le_length (by omega)] at h4
          exact ⟨rest, h4⟩
    · rcases ih hinf with h1 | h2 | h3
      · left
        exact List.infix_cons h1
      · right; left
        exact h2
      · right; right
        obtain ⟨w₁, w₂, hw, h₁, h₂, hs, hp⟩ := h3
        exact ⟨w₁, w₂, hw, h₁, h₂, hs.trans (List.suffix_cons c u'), hp⟩

/-- `replaceAll` unfolding in the match branch. -/
lemma replaceAll_pos {x r : Str} {s : Str} (hx : x ≠ []) (hp : x.isPrefixOf s) :
    replaceAll x r s = r ++ replaceAll x r (s.drop x.length) := by
  cases s with
  | nil =>
    cases x with
    | nil => exact absurd rfl hx
    | cons a t => simp [List.isPrefixOf] at hp
  | cons c s' =>
    rw [replaceAll]
    simp [hx, hp]

/-- `replaceAll` unfolding in the no-match branch. -/
lemma replaceAll_neg {x r : Str} {c : Char} {s : Str}
    (hp : ¬ (x ≠ [] ∧ x.isPrefixOf (c :: s))) :
    replaceAll x r (c :: s) = c :: replaceAll x r s := by
  rw [replaceAll]
  simp only [dif_neg hp]

/-- Structure theorem: `s` splits into segments none of which contains `x`,
`s` being the `x`-join and `replaceAll x r s` the `r`-join. -/
lemma replaceAll_spec (x r : Str) (hx : x ≠ []) (s : Str) :
    ∃ L : List Str, L ≠ [] ∧ s = joinSep x L ∧
      replaceAll x r s = joinSep r L ∧ ∀ a ∈ L, ¬ x <:+: a := by
  have main : ∀ fuel : Nat, ∀ s : Str, s.length ≤ fuel →
      ∃ L : List Str, L ≠ [] ∧ s = joinSep x L ∧
        replaceAll x r s = joinSep r L ∧ ∀ a ∈ L, ¬ x <:+: a := by
    intro fuel
    induction fuel with
    | zero =>
      intro s hs
      have hsnil : s = [] := List.eq_nil_of_length_eq_zero (Nat.le_zero.mp hs)
      subst hsnil
      refine ⟨[[]], by simp, rfl, by rw [replaceAll_nil]; rfl, ?_⟩
      intro a ha
      simp at ha
      subst ha
      simp [List.infix_nil, hx]
    | succ fuel ih =>
      intro s hs
      by_cases hp : x.isPrefixOf s
      · have hps : x <+: s := List.isPrefixOf_iff_prefix.mp hp
        obtain ⟨rest, hrest⟩ := hps
        have hx0 : 0 < x.length := List.length_pos.mpr hx
        have hlen : (s.drop x.length).length ≤ fuel := by
          simp only [List.length_drop]
          omega
        obtain ⟨L', hL'ne, hsplit, hrepl, hfree⟩ := ih (s.drop x.length) hlen
        have hdrop : s.drop x.length = rest := by
          have := congrArg (List.drop x.length) hrest
          rw [List.drop_left] at this
          exact this.symm
        refine ⟨[] :: L', by simp, ?_, ?_, ?_⟩
        · cases L' with
          | nil => exact absurd rfl hL'ne
          | cons a t =>
            rw [joinSep_cons₂]
            simp only [List.nil_append]
            rw [← hsplit, hdrop, ← hrest]
        · rw [replaceAll_pos hx hp]
          cases L' with
          | nil => exact absurd rfl hL'ne
          | cons a t =>
            rw [joinSep_cons₂]
            simp only [List.nil_append]
            rw [← hrepl]
        · intro a ha
          rcases List.mem_cons.mp ha with rfl | ha'
          · simp [List.infix_nil, hx]
          · exact hfree a ha'
      · cases s with
        | nil =>
          refine ⟨[[]], by simp, rfl, by rw [replaceAll_nil]; rfl, ?_⟩
          intro a ha
          simp at ha
          subst ha
          simp [List.infix_nil, hx]
        | cons c s' =>
          obtain ⟨L', hL'ne, hsplit, hrepl, hfree⟩ := ih s' (by simp at hs; omega)
          cases L' with
          | nil => exact absurd rfl hL'ne
          | cons a t =>
            refine ⟨(c :: a) :: t, by simp, ?_, ?_, ?_⟩
            · cases t with
              | nil =>
                rw [joinSep_single] at hsplit ⊢
                rw [hsplit]
              | cons b t' =>
                rw [joinSep_cons₂] at hsplit ⊢
                simp [hsplit]
            · rw [replaceAll_neg (by simp [hp])]
              cases t with
              | nil =>
                rw [joinSep_single] at hrepl ⊢
                rw [hrepl]
              | cons b t' =>
                rw [joinSep_cons₂] at hrepl ⊢
                simp [hrepl]
            · intro a' ha'
              rcases List.mem_cons.mp ha' with rfl | ha''
              · intro hinf
                rcases List.infix_cons_iff.mp hinf with hx1 | hx2
                · apply hp
                  apply List.isPrefixOf_iff_prefix.mpr
                  have hpca : c :: a <+: c :: s' := by
                    cases t with
                    | nil =>
                      rw [joinSep_single] at hsplit
                      rw [hsplit]
                    | cons b t' =>
                      rw [joinSep_cons₂] at hsplit
                      rw [hsplit, List.append_assoc]
                      exact List.prefix_append _ _
                  exact hx1.trans hpca
                · exact hfree a (by simp) hx2
              · exact hfree a' (List.mem_cons_of_mem _ ha'')
  exact main s.length s le_rfl

/-- If `x` has no occurrence in `s` then `replaceAll` is the identity. -/
lemma replaceAll_of_not_contained {x r s : Str} (h : ¬ x <:+: s) :
    replaceAll x r s = s := by
  induction s with
  | nil => rw [replaceAll_nil]
  | cons c s' ih =>
    have hnp : ¬ x.isPrefixOf (c :: s') := by
      intro hp
      exact h (List.isPrefixOf_iff_prefix.mp hp).isInfix
    rw [replaceAll_neg (by simp [hnp])]
    rw [ih (fun hi => h (List.infix_cons hi))]

/-- Any occurrence of `w` in a non-trivial join lies inside one segment or
touches the separator. -/
lemma infix_joinSep_cases {w sep : Str} (hsep : sep ≠ []) :
    ∀ L : List Str, L ≠ [] → w <:+: joinSep sep L →
      (∃ a ∈ L, w <:+: a) ∨ ∃ c ∈ w, c ∈ sep := by
  intro L
  induction L with
  | nil => intro h; exact absurd rfl h
  | cons a t ih =>
    intro _ h
    cases t with
    | nil =>
      rw [joinSep_single] at h
      exact Or.inl ⟨a, by simp, h⟩
    | cons b t' =>
      rw [joinSep_cons₂, List.append_assoc] at h
      rcases infix_append_cases h with h1 | h2 | h3
      · exact Or.inl ⟨a, by simp, h1⟩
      · rcases infix_append_cases h2 with g1 | g2 | g3
        · cases w with
          | nil => exact Or.inl ⟨a, by simp, List.nil_infix⟩
          | cons c w' =>
            right
            exact ⟨c, by simp, g1.subset (by simp)⟩
        · rcases ih (by simp) g2 with ⟨a', ha', hw⟩ | hc
          · exact Or.inl ⟨a', by simp [ha'], hw⟩
          · exact Or.inr hc
        · obtain ⟨w₁, w₂, hw, hw₁, _, hs₁, _⟩ := g3
          right
          cases w₁ with
          | nil => exact absurd rfl hw₁
          | cons c w₁' =>
            exact ⟨c, by simp [hw], hs₁.subset (by simp)⟩
      · obtain ⟨w₁, w₂, hw, _, hw₂, _, hp₂⟩ := h3
        cases w₂ with
        | nil => exact absurd rfl hw₂
        | cons c w₂' =>
          right
          refine ⟨c, by simp [hw], ?_⟩
          cases sep with
          | nil => exact absurd rfl hsep
          | cons d sep' =>
            have := (List.cons_prefix_cons.mp hp₂).1
            simp [this]

/-- Key preservation lemma: if `m` does not occur in `s`, every character of
`m` avoids `r`, and `r` is non-empty, then `m` does not occur after a
replacement either. -/
lemma not_infix_replaceAll {m x r s : Str} (hm : ¬ m <:+: s)
    (hdisj : ∀ c ∈ m, c ∉ r) (hr : r ≠ []) (hx : x ≠ []) :
    ¬ m <:+: replaceAll x r s := by
  intro h
  obtain ⟨L, hLne, hsplit, hrepl, _⟩ := replaceAll_spec x r hx s
  rw [hrepl] at h
  rcases infix_joinSep_cases hr L hLne h with ⟨a, ha, hw⟩ | ⟨c, hc, hcr⟩
  · exact hm (hw.trans (by rw [hsplit]; exact mem_infix_joinSep ha))
  · exact hdisj c hc hcr

/-- After `replaceAll x r s` the pattern `x` itself is gone, provided the
replacement shares no character with it. -/
lemma not_infix_replaceAll_self {x r s : Str} (hx : x ≠ [])
    (hdisj : ∀ c ∈ x, c ∉ r) (hr : r ≠ []) :
    ¬ x <:+: replaceAll x r s := by
  intro h
  obtain ⟨L, hLne, hsplit, hrepl, hfree⟩ := replaceAll_spec x r hx s
  rw [hrepl] at h
  rcases infix_joinSep_cases hr L hLne h with ⟨a, ha, hw⟩ | ⟨c, hc, hcr⟩
  · exact hfree a ha hw
  · exact hdisj c hc hcr

/-- If the pattern actually occurs, the replacement token appears in the
output. -/
lemma infix_replaceAll_of_mem {x r s : Str} (hx : x ≠ []) (h : x <:+: s) :
    r <:+: replaceAll x r s := by
  obtain ⟨L, hne, hsplit, hrepl, hfree⟩ := replaceAll_spec x r hx s
  rw [hrepl]
  cases L with
  | nil => exact absurd rfl hne
  | cons a t =>
    cases t with
    | nil =>
      exfalso
      apply hfree a (by simp)
      rw [hsplit, joinSep_single] at h
      exact h
    | cons b t' => exact sep_infix_joinSep

/-- While the scanner sits inside a bracket-delimited token, no match of a
bracket-free pattern with a foreign character can start, so the remaining
part of the token is copied verbatim. -/
lemma replaceAll_skips_token_suffix {v x r : Str}
    (hv2 : v.getLast? = some ']') (hxr : ']' ∉ x) (hchar : ∃ c ∈ x, c ∉ v) :
    ∀ v₂ : Str, v₂ ≠ [] → v₂ <:+ v → ∀ β,
      replaceAll x r (v₂ ++ β) = v₂ ++ replaceAll x r β := by
  intro v₂
  induction v₂ with
  | nil => intro h; exact absurd rfl h
  | cons c v₂' ih =>
    intro _ hsuf β
    have hnp : ¬ x.isPrefixOf ((c :: v₂') ++ β) := by
      intro hp
      have hxp : x <+: (c :: v₂') ++ β := List.isPrefixOf_iff_prefix.mp hp
      by_cases hlen : x.length ≤ v₂'.length + 1
      · have hxv₂ : x <+: c :: v₂' :=
          (List.isPrefix_append_of_length (by simpa using hlen)).mp hxp
        obtain ⟨d, hdx, hdv⟩ := hchar
        exact hdv (hsuf.subset (hxv₂.subset hdx))
      · push_neg at hlen
        have hv₂x : c :: v₂' <+: x :=
          List.prefix_of_prefix_length_le (List.prefix_append _ _) hxp (by simp; omega)
        have hlast : (c :: v₂').getLast? = some ']' := by
          obtain ⟨pre, hpre⟩ := hsuf
          rw [← hv2, ← hpre]
          exact (@List.getLast?_append_of_ne_nil _ pre (c :: v₂') (by simp)).symm
        have : (']' : Char) ∈ c :: v₂' := List.mem_of_mem_getLast? (by rw [hlast]; rfl)
        exact hxr (hv₂x.subset this)
    have hstep : replaceAll x r (c :: (v₂' ++ β)) = c :: replaceAll x r (v₂' ++ β) :=
      @replaceAll_neg x r c (v₂' ++ β) (fun hcon => hnp hcon.2)
    rw [List.cons_append, hstep]
    cases v₂' with
    | nil => simp
    | cons d v₂'' =>
      rw [ih (by simp) ((List.suffix_cons c _).trans hsuf) β]
      simp

/-- Token preservation: a bracket-delimited token `v` survives replacement of
any bracket-free pattern `x` that contains a character foreign to `v`. -/
lemma infix_replaceAll_of_token {v x r : Str}
    (hv1 : v.head? = some '[') (hv2 : v.getLast? = some ']')
    (hxl : '[' ∉ x) (hxr : ']' ∉ x) (hchar : ∃ c ∈ x, c ∉ v) (hx : x ≠ [])
    {s : Str} (h : v <:+: s) : v <:+: replaceAll x r s := by
  have hvne : v ≠ [] := by
    intro hnil
    rw [hnil] at hv1
    simp at hv1
  obtain ⟨α, β, hαβ⟩ := h
  have main : ∀ fuel : Nat, ∀ α β : Str, (α ++ v ++ β).length ≤ fuel →
      v <:+: replaceAll x r (α ++ v ++ β) := by
    intro fuel
    induction fuel with
    | zero =>
      intro α β habs
      exfalso
      have hv0 : 0 < v.length := List.length_pos.mpr hvne
      rw [List.length_append, List.length_append] at habs
      omega
    | succ fuel ih =>
      intro α β hlen
      cases α with
      | nil =>
        simp only [List.nil_append]
        rw [replaceAll_skips_token_suffix hv2 hxr hchar v hvne List.suffix_rfl β]
        exact (List.prefix_append v _).isInfix
      | cons a α' =>
        by_cases hp : x.isPrefixOf ((a :: α') ++ v ++ β)
        · have hxp : x <+: (a :: α') ++ v ++ β := List.isPrefixOf_iff_prefix.mp hp
          have hxa : x.length ≤ α'.length + 1 := by
            by_contra hgt
            push_neg at hgt
            have hxp2 : x <+: (a :: α') ++ (v ++ β) := by
              rw [← List.append_assoc]
              exact hxp
            have hlen2 : (a :: α').length ≤ x.length := by
              simp only [List.length_cons]
              omega
            obtain ⟨t, ht⟩ :=
              List.prefix_of_prefix_length_le
                (List.prefix_append (a :: α') (v ++ β)) hxp2 hlen2
            have htvβ : t <+: v ++ β := by
              rw [← ht] at hxp2
              exact (List.prefix_append_right_inj (a :: α')).mp hxp2
            have htne : t ≠ [] := by
              intro hnil
              rw [hnil, List.append_nil] at ht
              have := congrArg List.length ht
              simp at this
              omega
            by_cases htv : t.length ≤ v.length
            · have htpv : t <+: v := (List.isPrefix_append_of_length htv).mp htvβ
              have hthead : t.head? = some '[' := by
                cases t with
                | nil => exact absurd rfl htne
                | cons e t' =>
                  cases v with
                  | nil => exact absurd rfl hvne
                  | cons f v' =>
                    simp only [List.head?_cons] at hv1 ⊢
                    have := (List.cons_prefix_cons.mp htpv).1
                    rw [this, ← hv1]
              have : ('[' : Char) ∈ t := List.mem_of_mem_head? (by rw [hthead]; rfl)
              exact hxl (by rw [← ht]; exact List.mem_append_right _ this)
            · push_neg at htv
              have hvt : v <+: t :=
                List.prefix_of_prefix_length_le (List.prefix_append v β) htvβ (le_of_lt htv)
              have : ('[' : Char) ∈ v := List.mem_of_mem_head? (by rw [hv1]; rfl)
              exact hxl (by rw [← ht]; exact List.mem_append_right _ (hvt.subset this))
          have hxα : x <+: a :: α' := by
            rw [List.append_assoc] at hxp
            exact (List.isPrefix_append_of_length (by simpa using hxa)).mp hxp
          rw [replaceAll_pos hx hp]
          have hdrop : ((a :: α') ++ v ++ β).drop x.length =
              ((a :: α').drop x.length) ++ v ++ β := by
            rw [List.append_assoc, List.drop_append_of_le_length (by simpa using hxa),
              List.append_assoc]
          rw [hdrop]
          have hx0 : 0 < x.length := List.length_pos.mpr hx
          have := ih ((a :: α').drop x.length) β (by
            simp only [List.length_append, List.length_drop, List.length_cons] at hlen ⊢
            omega)
          exact this.trans (List.suffix_append r _).isInfix
        · show v <:+: replaceAll x r (a :: (α' ++ v ++ β))
          rw [@replaceAll_neg x r a (α' ++ v ++ β) (fun hcon => hp hcon.2)]
          refine List.infix_cons (ih α' β ?_)
          simp only [List.length_append, List.length_cons] at hlen ⊢
          omega
  rw [← hαβ]
  exact main (α ++ v ++ β).length α β le_rfl

/-!
## Regex engine

A small backtracking engine covering exactly the constructs used by the
`PHI_PATTERNS` of `src/tools/web_search.py`: character classes,
concatenation, ordered alternation, counted greedy repetition and the `\b`
word-boundary assertion.  `reMatches` enumerates candidate matches in
Python's backtracking priority order (first alternative first, greedy
repetition longest first), so its head is the match `re.match` would return.
-/

inductive RE : Type
  | cls (p : Char → Bool)
  | seq (a b : RE)
  | alt (a b : RE)
  | rep (lo : Nat) (hi : Option Nat) (r : RE)
  | bnd

/-- Character preceding the rest of the input after consuming `u`. -/
def lastChar (prev : Option Char) (u : Str) : Option Char :=
  match u.getLast? with
  | some c => some c
  | none => prev

/-- `\b`: exactly one of the neighbouring characters is a word character. -/
def atBoundary (prev next : Option Char) : Bool :=
  match prev, next with
  | none, none => false
  | none, some c => isWordChar c
  | some c, none => isWordChar c
  | some c, some d => isWordChar c != isWordChar d

def decMax : Option Nat → Option Nat
  | none => none
  | some n => some (n - 1)

/-- All ways `re` can match a prefix of `s`, as `(consumed, rest)` pairs in
backtracking priority order.  `prev` is the character just before `s` in the
full text (for `\b`).  `fuel` bounds the recursion through repetitions; any
`fuel > s.length` is enough because every repetition body in the modelled
patterns consumes at least one character. -/
def reMatches (fuel : Nat) (re : RE) (prev : Option Char) (s : Str) :
    List (Str × Str) :=
  match re with
  | .cls p =>
    match s with
    | [] => []
    | c :: t => if p c then [([c], t)] else []
  | .seq a b =>
    (reMatches fuel a prev s).flatMap (fun pr =>
      (reMatches fuel b (lastChar prev pr.1) pr.2).map (fun qr =>
        (pr.1 ++ qr.1, qr.2)))
  | .alt a b => reMatches fuel a prev s ++ reMatches fuel b prev s
  | .bnd => if atBoundary prev s.head? then [([], s)] else []
  | .rep lo hi r =>
    match fuel with
    | 0 => []
    | fuel' + 1 =>
      let more :=
        if hi = some 0 then []
        else
          (reMatches (fuel' + 1) r prev s).flatMap (fun pr =>
            (reMatches fuel' (.rep (lo - 1) (decMax hi) r) (lastChar prev pr.1)
              pr.2).map (fun qr => (pr.1 ++ qr.1, qr.2)))
      let here := if lo = 0 then [([], s)] else []
      more ++ here
termination_by (fuel, sizeOf re)

/-- The match Python `re` returns at this position, if any. -/
def matchAt (re : RE) (prev : Option Char) (s : Str) : Option (Str × Str) :=
  (reMatches (s.length + 1) re prev s).head?

/-- Every candidate match splits the input: `s = consumed ++ rest`. -/
lemma reMatches_append :
    ∀ (fuel : Nat) (re : RE) (prev : Option Char) (s : Str),
      ∀ pr ∈ reMatches fuel re prev s, s = pr.1 ++ pr.2 := by
  intro fuel
  induction fuel using Nat.strong_induction_on with
  | _ fuel ihf =>
    intro re
    induction re with
    | cls p =>
      intro prev s pr h
      cases s with
      | nil => simp [reMatches] at h
      | cons c t =>
        by_cases hp : p c
        · simp [reMatches, hp] at h
          subst h
          rfl
        · simp [reMatches, hp] at h
    | seq a b iha ihb =>
      intro prev s pr h
      simp only [reMatches, List.mem_flatMap, List.mem_map] at h
      obtain ⟨pq, hpq, qr, hqr, heq⟩ := h
      subst heq
      have h1 := iha prev s pq hpq
      have h2 := ihb (lastChar prev pq.1) pq.2 qr hqr
      rw [h1, h2, List.append_assoc]
    | alt a b iha ihb =>
      intro prev s pr h
      rcases List.mem_append.mp (by simpa [reMatches] using h) with h | h
      · exact iha prev s pr h
      · exact ihb prev s pr h
    | bnd =>
      intro prev s pr h
      by_cases hb : atBoundary prev s.head?
      · simp [reMatches, hb] at h
        subst h
        rfl
      · simp [reMatches, hb] at h
    | rep lo hi r ihr =>
      intro prev s pr h
      cases fuel with
      | zero => simp [reMatches] at h
      | succ fuel' =>
        simp only [reMatches] at h
        rcases List.mem_append.mp h with hmore | hhere
        · by_cases hh : hi = some 0
          · simp [hh] at hmore
          · simp only [if_neg hh, List.mem_flatMap, List.mem_map] at hmore
            obtain ⟨pq, hpq, qr, hqr, heq⟩ := hmore
            subst heq
            have h1 := ihr prev s pq hpq
            have h2 := ihf fuel' (Nat.lt_succ_self _) (.rep (lo - 1) (decMax hi) r)
              (lastChar prev pq.1) pq.2 qr hqr
            rw [h1, h2, List.append_assoc]
        · by_cases hl : lo = 0
          · simp [hl] at hhere
            subst hhere
            rfl
          · simp [hl] at hhere

/-- Alphabet discipline: which characters a pattern can ever consume. -/
def AlphOK (q : Char → Bool) : RE → Prop
  | .cls p => ∀ c, p c = true → q c = true
  | .seq a b => AlphOK q a ∧ AlphOK q b
  | .alt a b => AlphOK q a ∧ AlphOK q b
  | .rep _ _ r => AlphOK q r
  | .bnd => True

/-- Every character of a match is drawn from the pattern's alphabet. -/
lemma reMatches_alph {q : Char → Bool} :
    ∀ (fuel : Nat) (re : RE), AlphOK q re → ∀ (prev : Option Char) (s : Str),
      ∀ pr ∈ reMatches fuel re prev s, ∀ c ∈ pr.1, q c = true := by
  intro fuel
  induction fuel using Nat.strong_induction_on with
  | _ fuel ihf =>
    intro re
    induction re with
    | cls p =>
      intro hq prev s pr h c hc
      cases s with
      | nil => simp [reMatches] at h
      | cons d t =>
        by_cases hp : p d
        · simp [reMatches, hp] at h
          subst h
          simp at hc
          subst hc
          exact hq _ hp
        · simp [reMatches, hp] at h
    | seq a b iha ihb =>
      intro hq prev s pr h c hc
      simp only [reMatches, List.mem_flatMap, List.mem_map] at h
      obtain ⟨pq, hpq, qr, hqr, heq⟩ := h
      subst heq
      rcases List.mem_append.mp hc with hc | hc
      · exact iha hq.1 prev s pq hpq c hc
      · exact ihb hq.2 (lastChar prev pq.1) pq.2 qr hqr c hc
    | alt a b iha ihb =>
      intro hq prev s pr h c hc
      rcases List.mem_append.mp (by simpa [reMatches] using h) with h | h
      · exact iha hq.1 prev s pr h c hc
      · exact ihb hq.2 prev s pr h c hc
    | bnd =>
      intro _ prev s pr h c hc
      by_cases hb : atBoundary prev s.head?
      · simp [reMatches, hb] at h
        subst h
        simp at hc
      · simp [reMatches, hb] at h
    | rep lo hi r ihr =>
      intro hq prev s pr h c hc
      cases fuel with
      | zero => simp [reMatches] at h
      | succ fuel' =>
        simp only [reMatches] at h
        rcases List.mem_append.mp h with hmore | hhere
        · by_cases hh : hi = some 0
          · simp [hh] at hmore
          · simp only [if_neg hh, List.mem_flatMap, List.mem_map] at hmore
            obtain ⟨pq, hpq, qr, hqr, heq⟩ := hmore
            subst heq
            rcases List.mem_append.mp hc with hc | hc
            · exact ihr hq prev s pq hpq c hc
            · exact ihf fuel' (Nat.lt_succ_self _) (.rep (lo - 1) (decMax hi) r) hq
                (lastChar prev pq.1) pq.2 qr hqr c hc
        · by_cases hl : lo = 0
          · simp [hl] at hhere
            subst hhere
            simp at hc
          · simp [hl] at hhere

/-- Syntactic witness that every match of the pattern must contain a
character satisfying `q`. -/
inductive MustHave (q : Char → Bool) : RE → Prop
  | cls {p : Char → Bool} (h : ∀ c, p c = true → q c = true) : MustHave q (.cls p)
  | seqLeft {a b : RE} (h : MustHave q a) : MustHave q (.seq a b)
  | seqRight {a b : RE} (h : MustHave q b) : MustHave q (.seq a b)
  | alt {a b : RE} (ha : MustHave q a) (hb : MustHave q b) : MustHave q (.alt a b)
  | rep {lo : Nat} {hi : Option Nat} {r : RE} (h : MustHave q r) (hlo : lo ≠ 0) :
      MustHave q (.rep lo hi r)

/-- Every match of a `MustHave q` pattern contains a `q`-character (hence in
particular is non-empty). -/
lemma reMatches_mustHave {q : Char → Bool} {re : RE} (hm : MustHave q re) :
    ∀ (fuel : Nat) (prev : Option Char) (s : Str),
      ∀ pr ∈ reMatches fuel re prev s, ∃ c ∈ pr.1, q c = true := by
  induction hm with
  | cls h =>
    rename_i p
    intro fuel prev s pr hpr
    cases s with
    | nil => simp [reMatches] at hpr
    | cons d t =>
      by_cases hp : p d
      · simp [reMatches, hp] at hpr
        subst hpr
        exact ⟨d, by simp, h d hp⟩
      · simp [reMatches, hp] at hpr
  | seqLeft h ih =>
    intro fuel prev s pr hpr
    simp only [reMatches, List.mem_flatMap, List.mem_map] at hpr
    obtain ⟨pq, hpq, qr, hqr, heq⟩ := hpr
    subst heq
    obtain ⟨c, hc, hqc⟩ := ih fuel prev s pq hpq
    exact ⟨c, by simp [hc], hqc⟩
  | seqRight h ih =>
    intro fuel prev s pr hpr
    simp only [reMatches, List.mem_flatMap, List.mem_map] at hpr
    obtain ⟨pq, hpq, qr, hqr, heq⟩ := hpr
    subst heq
    obtain ⟨c, hc, hqc⟩ := ih fuel (lastChar prev pq.1) pq.2 qr hqr
    exact ⟨c, by simp [hc], hqc⟩
  | alt ha hb iha ihb =>
    intro fuel prev s pr hpr
    rcases List.mem_append.mp (by simpa [reMatches] using hpr) with h | h
    · exact iha fuel prev s pr h
    · exact ihb fuel prev s pr h
  | rep h hlo ih =>
    rename_i lo hi r
    intro fuel prev s pr hpr
    cases fuel with
    | zero => simp [reMatches] at hpr
    | succ fuel' =>
      simp only [reMatches] at hpr
      rcases List.mem_append.mp hpr with hmore | hhere
      · by_cases hh : hi = some 0
        · simp [hh] at hmore
        · simp only [if_neg hh, List.mem_flatMap, List.mem_map] at hmore
          obtain ⟨pq, hpq, qr, hqr, heq⟩ := hmore
          subst heq
          obtain ⟨c, hc, hqc⟩ := ih (fuel' + 1) prev s pq hpq
          exact ⟨c, by simp [hc], hqc⟩
      · simp [hlo] at hhere

/-- `re.finditer`: scan left to right, at each position take the engine's
match if any, record the matched string, and continue after it (or one
character further on a zero-width match, which the modelled patterns never
produce). -/
def finditer (re : RE) (prev : Option Char) (s : Str) : List Str :=
  match s with
  | [] =>
    match matchAt re prev [] with
    | some (u, _) => [u]
    | none => []
  | c :: t =>
    match matchAt re prev (c :: t) with
    | none => finditer re (some c) t
    | some (u, _) =>
      if h : u.length = 0 then u :: finditer re (some c) t
      else u :: finditer re (lastChar prev u) ((c :: t).drop u.length)
termination_by s.length
decreasing_by
  all_goals simp only [List.length_drop, List.length_cons]
  all_goals omega

/-- Every string recorded by `finditer` is the consumed part of some engine
match. -/
lemma finditer_mem {re : RE} :
    ∀ (prev : Option Char) (s : Str), ∀ o ∈ finditer re prev s,
      ∃ (fuel : Nat) (prev0 : Option Char) (s0 : Str) (rest : Str),
        (o, rest) ∈ reMatches fuel re prev0 s0 := by
  have main : ∀ (n : Nat) (prev : Option Char) (s : Str), s.length ≤ n →
      ∀ o ∈ finditer re prev s,
        ∃ (fuel : Nat) (prev0 : Option Char) (s0 : Str) (rest : Str),
          (o, rest) ∈ reMatches fuel re prev0 s0 := by
    intro n
    induction n with
    | zero =>
      intro prev s hs o ho
      have hsnil : s = [] := List.eq_nil_of_length_eq_zero (Nat.le_zero.mp hs)
      subst hsnil
      simp only [finditer] at ho
      rcases hma : matchAt re prev [] with _ | ⟨u, rest⟩
      · rw [hma] at ho
        simp at ho
      · rw [hma] at ho
        simp at ho
        subst ho
        exact ⟨1, prev, [], rest, List.mem_of_mem_head? (Option.mem_def.mpr hma)⟩
    | succ n ih =>
      intro prev s hs o ho
      cases s with
      | nil =>
        simp only [finditer] at ho
        rcases hma : matchAt re prev [] with _ | ⟨u, rest⟩
        · rw [hma] at ho
          simp at ho
        · rw [hma] at ho
          simp at ho
          subst ho
          exact ⟨1, prev, [], rest, List.mem_of_mem_head? (Option.mem_def.mpr hma)⟩
      | cons c t =>
        simp only [finditer] at ho
        rcases hma : matchAt re prev (c :: t) with _ | ⟨u, rest⟩
        · rw [hma] at ho
          exact ih (some c) t (by simp at hs; omega) o ho
        · rw [hma] at ho
          have humem : (u, rest) ∈ reMatches ((c :: t).length + 1) re prev (c :: t) :=
            List.mem_of_mem_head? (Option.mem_def.mpr hma)
          by_cases hz : u.length = 0
          · simp only [hz, dite_true, reduceCtorEq] at ho
            rcases List.mem_cons.mp (by simpa using ho) with rfl | ho'
            · exact ⟨(c :: t).length + 1, prev, c :: t, rest, humem⟩
            · exact ih (some c) t (by simp at hs; omega) o ho'
          · simp only [hz, dite_false, reduceCtorEq] at ho
            rcases List.mem_cons.mp (by simpa using ho) with rfl | ho'
            · exact ⟨(c :: t).length + 1, prev, c :: t, rest, humem⟩
            · exact ih (lastChar prev u) ((c :: t).drop u.length)
                (by simp only [List.length_drop, List.length_cons] at *; omega) o ho'
  intro prev s
  exact main s.length prev s le_rfl

/-- Characters of every `finditer` string respect the pattern alphabet. -/
lemma finditer_alph {q : Char → Bool} {re : RE} (hq : AlphOK q re)
    {prev : Option Char} {s : Str} {o : Str} (ho : o ∈ finditer re prev s) :
    ∀ c ∈ o, q c = true := by
  obtain ⟨fuel, prev0, s0, rest, hmem⟩ := finditer_mem prev s o ho
  exact reMatches_alph fuel re hq prev0 s0 (o, rest) hmem

/-- Every `finditer` string of a `MustHave` pattern has a `q`-character. -/
lemma finditer_mustHave {q : Char → Bool} {re : RE} (hq : MustHave q re)
    {prev : Option Char} {s : Str} {o : Str} (ho : o ∈ finditer re prev s) :
    ∃ c ∈ o, q c = true := by
  obtain ⟨fuel, prev0, s0, rest, hmem⟩ := finditer_mem prev s o ho
  exact reMatches_mustHave hq fuel prev0 s0 (o, rest) hmem

/-!
## The PHI patterns of `src/tools/web_search.py`

All structured patterns are compiled with `re.IGNORECASE`, which is folded
into the character classes (letter classes accept both cases).  `\d`, `\w`,
`\s` and the letter ranges are modelled over ASCII.
-/

def clsDigit : RE := .cls (fun c => c.isDigit)

def clsDash : RE := .cls (fun c => c = '-')

def clsDashDot : RE := .cls (fun c => c = '-' || c = '.')

def clsSlashDash : RE := .cls (fun c => c = '/' || c = '-')

def clsSpace : RE := .cls (fun c => c.isWhitespace)

def clsUpper : RE := .cls (fun c => c.isUpper)

def clsLower : RE := .cls (fun c => c.isLower)

def clsAlpha : RE := .cls (fun c => c.isAlpha)

def clsAlphaSpace : RE := .cls (fun c => c.isAlpha || c.isWhitespace)

/-- `[A-Za-z0-9._%+-]` (email local part). -/
def clsLocal : RE :=
  .cls (fun c => c.isAlpha || c.isDigit || c = '.' || c = '_' || c = '%' || c = '+' || c = '-')

def clsAt : RE := .cls (fun c => c = '@')

/-- `[A-Za-z0-9.-]` (email domain). -/
def clsDomain : RE := .cls (fun c => c.isAlpha || c.isDigit || c = '.' || c = '-')

def clsDot : RE := .cls (fun c => c = '.')

/-- `[A-Z|a-z]` under IGNORECASE: letters plus the literal bar. -/
def clsTld : RE := .cls (fun c => c.isAlpha || c = '|')

def repN (n : Nat) (r : RE) : RE := .rep n (some n) r

def repRange (lo hi : Nat) (r : RE) : RE := .rep lo (some hi) r

def rep0 (r : RE) : RE := .rep 0 none r

def rep1 (r : RE) : RE := .rep 1 none r

def opt (r : RE) : RE := .rep 0 (some 1) r

/-- Case-sensitive single character. -/
def chEx (c : Char) : RE := .cls (fun d => d = c)

/-- Case-insensitive single character. -/
def chCI (c : Char) : RE := .cls (fun d => d.toLower = c.toLower)

/-- The empty regex (matches the empty string). -/
def epsRE : RE := .rep 0 (some 0) (.cls (fun _ => false))

def litAux (f : Char → RE) : Str → RE
  | [] => epsRE
  | [c] => f c
  | c :: rest => .seq (f c) (litAux f rest)

/-- Case-sensitive literal. -/
def lit (w : String) : RE := litAux chEx w.toList

/-- Case-insensitive literal. -/
def litCI (w : String) : RE := litAux chCI w.toList

def altList : List RE → RE
  | [] => .cls (fun _ => false)
  | [a] => a
  | a :: rest => .alt a (altList rest)

/-- `\b\d{3}-\d{2}-\d{4}\b|\b\d{9}\b` -/
def ssnRE : RE :=
  .alt
    (.seq .bnd (.seq (repN 3 clsDigit) (.seq clsDash (.seq (repN 2 clsDigit)
      (.seq clsDash (.seq (repN 4 clsDigit) .bnd))))))
    (.seq .bnd (.seq (repN 9 clsDigit) .bnd))

/-- `\b\d{3}[-.]?\d{3}[-.]?\d{4}\b` -/
def phoneRE : RE :=
  .seq .bnd (.seq (repN 3 clsDigit) (.seq (opt clsDashDot) (.seq (repN 3 clsDigit)
    (.seq (opt clsDashDot) (.seq (repN 4 clsDigit) .bnd)))))

/-- `\b[A-Za-z0-9._%+-]+@[A-Za-z0-9.-]+\.[A-Z|a-z]{2,}\b` -/
def emailRE : RE :=
  .seq .bnd (.seq (rep1 clsLocal) (.seq clsAt (.seq (rep1 clsDomain)
    (.seq clsDot (.seq (.rep 2 none clsTld) .bnd)))))

/-- `\b[A-Z]{2,3}\d{6,10}\b` with IGNORECASE. -/
def mrnRE : RE :=
  .seq .bnd (.seq (repRange 2 3 clsAlpha) (.seq (repRange 6 10 clsDigit) .bnd))

/-- Date-of-birth pattern: `\b`, one or two digits, slash or dash, one or
two digits, slash or dash, two to four digits, `\b`. -/
def dobRE : RE :=
  .seq .bnd (.seq (repRange 1 2 clsDigit) (.seq clsSlashDash (.seq (repRange 1 2 clsDigit)
    (.seq clsSlashDash (.seq (repRange 2 4 clsDigit) .bnd)))))

def streetSuffixes : List String :=
  ["Street", "St", "Avenue", "Ave", "Road", "Rd", "Boulevard", "Blvd",
   "Lane", "Ln", "Drive", "Dr", "Court", "Ct", "Circle", "Cir", "Plaza", "Pl"]

/-- `\b\d+\s+[A-Za-z\s]+(?:Street|St|...)\b` with IGNORECASE. -/
def addressRE : RE :=
  .seq .bnd (.seq (rep1 clsDigit) (.seq (rep1 clsSpace)
    (.seq (rep1 clsAlphaSpace) (.seq (altList (streetSuffixes.map litCI)) .bnd))))

/-- `\b\d{5}(?:-\d{4})?\b` -/
def zipRE : RE :=
  .seq .bnd (.seq (repN 5 clsDigit) (.seq (opt (.seq clsDash (repN 4 clsDigit))) .bnd))

/-- `\b(?:Mr|Mrs|Ms|Dr|Prof)\.?\s+` — the part of the name heuristic before
the capture group (compiled without IGNORECASE). -/
def namePreRE : RE :=
  .seq .bnd (.seq (altList [lit "Mr", lit "Mrs", lit "Ms", lit "Dr", lit "Prof"])
    (.seq (opt (chEx '.')) (rep1 clsSpace)))

/-- `([A-Z][a-z]+(?:\s+[A-Z][a-z]+)*)` — capture group 1 of the name
heuristic. -/
def nameGrpRE : RE :=
  .seq clsUpper (.seq (rep1 clsLower)
    (rep0 (.seq (rep1 clsSpace) (.seq clsUpper (rep1 clsLower)))))

/-- The name-heuristic match at the current position, returning
`(prefix part, group 1, rest)`.  Enumerates prefix alternatives and group
candidates in backtracking priority order, exactly as the combined regex
would. -/
def matchName (prev : Option Char) (s : Str) : Option (Str × Str × Str) :=
  ((reMatches (s.length + 1) namePreRE prev s).flatMap (fun pr =>
    (reMatches (pr.2.length + 1) nameGrpRE (lastChar prev pr.1) pr.2).map (fun qr =>
      (pr.1, qr.1, qr.2)))).head?

/-- `re.finditer` for the name heuristic, recording group 1 of each match
(the source replaces `match.group(1)`), and advancing past the whole
match. -/
def finditerName (prev : Option Char) (s : Str) : List Str :=
  match s with
  | [] =>
    match matchName prev [] with
    | some (_, g, _) => [g]
    | none => []
  | c :: t =>
    match matchName prev (c :: t) with
    | none => finditerName (some c) t
    | some (u, g, _) =>
      if h : (u ++ g).length = 0 then g :: finditerName (some c) t
      else g :: finditerName (lastChar prev (u ++ g)) ((c :: t).drop (u ++ g).length)
termination_by s.length
decreasing_by
  all_goals simp only [List.length_drop, List.length_cons]
  all_goals omega

/-- Every group recorded by `finditerName` is a `nameGrpRE` engine match. -/
lemma finditerName_mem :
    ∀ (prev : Option Char) (s : Str), ∀ g ∈ finditerName prev s,
      ∃ (fuel : Nat) (prev0 : Option Char) (s0 : Str) (rest : Str),
        (g, rest) ∈ reMatches fuel nameGrpRE prev0 s0 := by
  have key : ∀ (prev : Option Char) (s : Str) (u g rest : Str),
      matchName prev s = some (u, g, rest) →
      ∃ (fuel : Nat) (prev0 : Option Char) (s0 : Str) (rest0 : Str),
        (g, rest0) ∈ reMatches fuel nameGrpRE prev0 s0 := by
    intro prev s u g rest hm
    have hmem := List.mem_of_mem_head? (Option.mem_def.mpr hm)
    simp only [List.mem_flatMap, List.mem_map] at hmem
    obtain ⟨pr, hpr, qr, hqr, heq⟩ := hmem
    refine ⟨pr.2.length + 1, lastChar prev pr.1, pr.2, qr.2, ?_⟩
    have : qr.1 = g := congrArg (fun z => z.2.1) heq
    rw [← this]
    exact hqr
  have main : ∀ (n : Nat) (prev : Option Char) (s : Str), s.length ≤ n →
      ∀ g ∈ finditerName prev s,
        ∃ (fuel : Nat) (prev0 : Option Char) (s0 : Str) (rest : Str),
          (g, rest) ∈ reMatches fuel nameGrpRE prev0 s0 := by
    intro n
    induction n with
    | zero =>
      intro prev s hs g hg
      have hsnil : s = [] := List.eq_nil_of_length_eq_zero (Nat.le_zero.mp hs)
      subst hsnil
      simp only [finditerName] at hg
      rcases hma : matchName prev [] with _ | ⟨u, g0, rest⟩
      · rw [hma] at hg
        simp at hg
      · rw [hma] at hg
        simp at hg
        subst hg
        exact key prev [] u g rest hma
    | succ n ih =>
      intro prev s hs g hg
      cases s with
      | nil =>
        simp only [finditerName] at hg
        rcases hma : matchName prev [] with _ | ⟨u, g0, rest⟩
        · rw [hma] at hg
          simp at hg
        · rw [hma] at hg
          simp at hg
          subst hg
          exact key prev [] u g rest hma
      | cons c t =>
        simp only [finditerName] at hg
        rcases hma : matchName prev (c :: t) with _ | ⟨u, g0, rest⟩
        · rw [hma] at hg
          exact ih (some c) t (by simp at hs; omega) g hg
        · rw [hma] at hg
          by_cases hz : (u ++ g0).length = 0
          · simp only [hz, dite_true] at hg
            rcases List.mem_cons.mp (by simpa using hg) with rfl | hg'
            · exact key prev (c :: t) u g rest hma
            · exact ih (some c) t (by simp at hs; omega) g hg'
          · simp only [hz, dite_false] at hg
            rcases List.mem_cons.mp (by simpa using hg) with rfl | hg'
            · exact key prev (c :: t) u g rest hma
            · exact ih (lastChar prev (u ++ g0)) ((c :: t).drop (u.length + g0.length))
                (by simp only [List.length_drop, List.length_cons, List.length_append] at *
                    omega) g hg'
  intro prev s
  exact main s.length prev s le_rfl

/-!
## `redact_phi` (`src/tools/web_search.py`)
-/

/-- Python `str.upper` on ASCII. -/
def pyUpper (s : Str) : Str := s.map Char.toUpper

/-- The replacement token for one PHI kind. -/
def tokenOf (kind : String) : Str :=
  "[REDACTED_".toList ++ pyUpper kind.toList ++ [']']

/-- `PHI_PATTERNS`, in the source's (insertion-ordered) dict order. -/
def phiPatterns : List (String × RE) :=
  [("ssn", ssnRE), ("phone", phoneRE), ("email", emailRE), ("mrn", mrnRE),
   ("dob", dobRE), ("address", addressRE), ("zip", zipRE)]

/-- One pattern pass of `redact_phi`: record the finditer matches of the
current text, then replace each matched string (everywhere it occurs) by the
kind's token, left to right through the match list. -/
def redactPass (kind : String) (re : RE) (t : Str) : Str × List (String × Str) :=
  let ms := finditer re none t
  (ms.foldl (fun acc o => replaceAll o (tokenOf kind) acc) t,
   ms.map (fun o => (kind, o)))

/-- `redact_phi` from `src/tools/web_search.py`: the seven structured
pattern passes in dict order followed by the honorific name-heuristic pass
(which replaces capture group 1).  Returns the redacted text together with
the `(type, original)` pairs of `redacted_items` (the recorded spans, unused
by any claim, are omitted). -/
def redactAll (ps : List (String × RE)) (acc : Str × List (String × Str)) :
    Str × List (String × Str) :=
  ps.foldl
    (fun acc p =>
      let r := redactPass p.1 p.2 acc.1
      (r.1, acc.2 ++ r.2))
    acc

def redact_phi (text : Str) : Str × List (String × Str) :=
  let afterPatterns := redactAll phiPatterns (text, [])
  let names := finditerName none afterPatterns.1
  (names.foldl (fun t g => replaceAll g (tokenOf "name") t) afterPatterns.1,
   afterPatterns.2 ++ names.map (fun g => ("name", g)))

/-!
## Determinism of the hyphenated-SSN match
-/

lemma reMatches_cls_singleton {p : Char → Bool} {c : Char} {rest : Str}
    (hp : p c = true) (fuel : Nat) (prev : Option Char) :
    reMatches fuel (.cls p) prev (c :: rest) = [([c], rest)] := by
  simp [reMatches, hp]

lemma reMatches_bnd_singleton {prev : Option Char} {s : Str}
    (hb : atBoundary prev s.head? = true) (fuel : Nat) :
    reMatches fuel .bnd prev s = [([], s)] := by
  simp [reMatches, hb]

lemma reMatches_seq_singleton {a b : RE} {fuel : Nat} {prev : Option Char}
    {s u r1 v r2 : Str}
    (h1 : reMatches fuel a prev s = [(u, r1)])
    (h2 : reMatches fuel b (lastChar prev u) r1 = [(v, r2)]) :
    reMatches fuel (.seq a b) prev s = [(u ++ v, r2)] := by
  simp [reMatches, h1, h2]

/-- Exact counted repetition of a character class consumes exactly the first
`k` characters when they fit the class. -/
lemma reMatches_repN_singleton {p : Char → Bool} :
    ∀ (k : Nat) (u rest : Str) (fuel : Nat) (prev : Option Char),
      u.length = k → (∀ c ∈ u, p c = true) → k < fuel →
      reMatches fuel (repN k (.cls p)) prev (u ++ rest) = [(u, rest)] := by
  intro k
  induction k with
  | zero =>
    intro u rest fuel prev hlen _ hfuel
    have hnil : u = [] := List.eq_nil_of_length_eq_zero hlen
    subst hnil
    cases fuel with
    | zero => omega
    | succ f => simp [repN, reMatches]
  | succ k ih =>
    intro u rest fuel prev hlen hall hfuel
    cases u with
    | nil => simp at hlen
    | cons c u' =>
      cases fuel with
      | zero => omega
      | succ f =>
        have hc : p c = true := hall c (by simp)
        have hrec : reMatches f (repN k (.cls p)) (lastChar prev [c]) (u' ++ rest) =
            [(u', rest)] := by
          apply ih u' rest f (lastChar prev [c]) (by simpa using hlen)
            (fun d hd => hall d (by simp [hd]))
          omega
        show reMatches (f + 1) (.rep (k + 1) (some (k + 1)) (.cls p)) prev
          ((c :: u') ++ rest) = [(c :: u', rest)]
        rw [reMatches]
        simp only [List.cons_append]
        rw [reMatches_cls_singleton hc]
        simp [decMax, repN] at hrec ⊢
        rw [hrec]
        simp

/-- Alternation: if the first branch produces a match list with head `pr`,
the whole alternation's preferred match is `pr`. -/
lemma reMatches_alt_head {a b : RE} {fuel : Nat} {prev : Option Char}
    {s : Str} {pr : Str × Str}
    (h1 : reMatches fuel a prev s = [pr]) :
    (reMatches fuel (.alt a b) prev s).head? = some pr := by
  simp [reMatches, h1]

/-- Well-formed hyphenated SSN string: `ddd-dd-dddd`. -/
def HyphSSN (w : Str) : Prop :=
  ∃ d1 d2 d3 d4 d5 d6 d7 d8 d9 : Char,
    (d1.isDigit = true ∧ d2.isDigit = true ∧ d3.isDigit = true ∧
     d4.isDigit = true ∧ d5.isDigit = true ∧ d6.isDigit = true ∧
     d7.isDigit = true ∧ d8.isDigit = true ∧ d9.isDigit = true) ∧
    w = [d1, d2, d3, '-', d4, d5, '-', d6, d7, d8, d9]

/-- Non-word character (or text edge) on the given side. -/
def NonWordOpt : Option Char → Prop
  | none => True
  | some c => isWordChar c = false

/-- At a position preceded by a non-word context and followed by a non-word
context, a hyphenated SSN is exactly what the SSN regex matches. -/
lemma ssn_matchAt {w after : Str} {prev : Option Char}
    (hw : HyphSSN w) (hprev : NonWordOpt prev) (hafter : NonWordOpt after.head?) :
    matchAt ssnRE prev (w ++ after) = some (w, after) := by
  obtain ⟨d1, d2, d3, d4, d5, d6, d7, d8, d9, hd, hweq⟩ := hw
  obtain ⟨h1, h2, h3, h4, h5, h6, h7, h8, h9⟩ := hd
  subst hweq
  have hwd : isWordChar d1 = true := by simp [isWordChar, h1]
  have hb1 : atBoundary prev
      (([d1, d2, d3, '-', d4, d5, '-', d6, d7, d8, d9] ++ after).head?) = true := by
    cases prev with
    | none => simpa [atBoundary] using hwd
    | some c =>
      simp only [NonWordOpt] at hprev
      simpa [atBoundary, hprev] using hwd
  have hb2 : atBoundary (some d9) after.head? = true := by
    have hwd9 : isWordChar d9 = true := by simp [isWordChar, h9]
    cases hh : after.head? with
    | none => simpa [atBoundary] using hwd9
    | some c =>
      rw [hh] at hafter
      simp only [NonWordOpt] at hafter
      simp [atBoundary, hafter, hwd9]
  have hfuel : (11 : Nat) < ([d1, d2, d3, '-', d4, d5, '-', d6, d7, d8, d9] ++ after).length + 1 := by
    simp
  set N := ([d1, d2, d3, '-', d4, d5, '-', d6, d7, d8, d9] ++ after).length + 1 with hN
  have e3 : reMatches N (repN 3 clsDigit) prev
      ([d1, d2, d3, '-', d4, d5, '-', d6, d7, d8, d9] ++ after) =
      [([d1, d2, d3], '-' :: d4 :: d5 :: '-' :: d6 :: d7 :: d8 :: d9 :: after)] := by
    apply reMatches_repN_singleton 3 [d1, d2, d3]
      ('-' :: d4 :: d5 :: '-' :: d6 :: d7 :: d8 :: d9 :: after) N prev rfl
    · intro c hc
      simp only [List.mem_cons, List.not_mem_nil, or_false] at hc
      rcases hc with rfl | rfl | rfl
      exacts [h1, h2, h3]
    · omega
  have eD1 : reMatches N clsDash (some d3)
      ('-' :: d4 :: d5 :: '-' :: d6 :: d7 :: d8 :: d9 :: after) =
      [(['-'], d4 :: d5 :: '-' :: d6 :: d7 :: d8 :: d9 :: after)] :=
    reMatches_cls_singleton (by decide) N (some d3)
  have e2 : reMatches N (repN 2 clsDigit) (some '-')
      (d4 :: d5 :: '-' :: d6 :: d7 :: d8 :: d9 :: after) =
      [([d4, d5], '-' :: d6 :: d7 :: d8 :: d9 :: after)] := by
    apply reMatches_repN_singleton 2 [d4, d5]
      ('-' :: d6 :: d7 :: d8 :: d9 :: after) N (some '-') rfl
    · intro c hc
      simp only [List.mem_cons, List.not_mem_nil, or_false] at hc
      rcases hc with rfl | rfl
      exacts [h4, h5]
    · omega
  have eD2 : reMatches N clsDash (some d5)
      ('-' :: d6 :: d7 :: d8 :: d9 :: after) =
      [(['-'], d6 :: d7 :: d8 :: d9 :: after)] :=
    reMatches_cls_singleton (by decide) N (some d5)
  have e4 : reMatches N (repN 4 clsDigit) (some '-')
      (d6 :: d7 :: d8 :: d9 :: after) = [([d6, d7, d8, d9], after)] := by
    apply reMatches_repN_singleton 4 [d6, d7, d8, d9] after N (some '-') rfl
    · intro c hc
      simp only [List.mem_cons, List.not_mem_nil, or_false] at hc
      rcases hc with rfl | rfl | rfl | rfl
      exacts [h6, h7, h8, h9]
    · omega
  have eB2 : reMatches N RE.bnd (some d9) after = [([], after)] :=
    reMatches_bnd_singleton hb2 N
  have s6 : reMatches N (.seq (repN 4 clsDigit) .bnd) (some '-')
      (d6 :: d7 :: d8 :: d9 :: after) = [([d6, d7, d8, d9], after)] :=
    reMatches_seq_singleton e4 eB2
  have s5 : reMatches N (.seq clsDash (.seq (repN 4 clsDigit) .bnd)) (some d5)
      ('-' :: d6 :: d7 :: d8 :: d9 :: after) =
      [(['-', d6, d7, d8, d9], after)] :=
    reMatches_seq_singleton eD2 s6
  have s4 : reMatches N (.seq (repN 2 clsDigit)
      (.seq clsDash (.seq (repN 4 clsDigit) .bnd))) (some '-')
      (d4 :: d5 :: '-' :: d6 :: d7 :: d8 :: d9 :: after) =
      [([d4, d5, '-', d6, d7, d8, d9], after)] :=
    reMatches_seq_singleton e2 s5
  have s3 : reMatches N (.seq clsDash (.seq (repN 2 clsDigit)
      (.seq clsDash (.seq (repN 4 clsDigit) .bnd)))) (some d3)
      ('-' :: d4 :: d5 :: '-' :: d6 :: d7 :: d8 :: d9 :: after) =
      [(['-', d4, d5, '-', d6, d7, d8, d9], after)] :=
    reMatches_seq_singleton eD1 s4
  have s2 : reMatches N (.seq (repN 3 clsDigit) (.seq clsDash (.seq (repN 2 clsDigit)
      (.seq clsDash (.seq (repN 4 clsDigit) .bnd))))) prev
      ([d1, d2, d3, '-', d4, d5, '-', d6, d7, d8, d9] ++ after) =
      [([d1, d2, d3, '-', d4, d5, '-', d6, d7, d8, d9], after)] :=
    reMatches_seq_singleton e3 s3
  have s1 : reMatches N (.seq .bnd (.seq (repN 3 clsDigit) (.seq clsDash
      (.seq (repN 2 clsDigit) (.seq clsDash (.seq (repN 4 clsDigit) .bnd)))))) prev
      ([d1, d2, d3, '-', d4, d5, '-', d6, d7, d8, d9] ++ after) =
      [([d1, d2, d3, '-', d4, d5, '-', d6, d7, d8, d9], after)] :=
    reMatches_seq_singleton (reMatches_bnd_singleton hb1 N) s2
  exact reMatches_alt_head s1

/-!
## Shape of SSN matches and the scanning bridge
-/

lemma mem_of_getElem?_eq {l : List Char} {i : Nat} {c : Char} (h : l[i]? = some c) :
    c ∈ l := by
  obtain ⟨hi, he⟩ := List.getElem?_eq_some.mp h
  exact he ▸ List.getElem_mem hi

lemma reMatches_cls_inv {p : Char → Bool} {fuel : Nat} {prev : Option Char}
    {s : Str} {pr : Str × Str} (h : pr ∈ reMatches fuel (.cls p) prev s) :
    ∃ c t, s = c :: t ∧ p c = true ∧ pr = ([c], t) := by
  cases s with
  | nil => simp [reMatches] at h
  | cons c t =>
    by_cases hp : p c
    · simp [reMatches, hp] at h
      exact ⟨c, t, rfl, hp, h⟩
    · simp [reMatches, hp] at h

lemma reMatches_bnd_inv {fuel : Nat} {prev : Option Char} {s : Str}
    {pr : Str × Str} (h : pr ∈ reMatches fuel .bnd prev s) : pr = ([], s) := by
  by_cases hb : atBoundary prev s.head?
  · simpa [reMatches, hb] using h
  · simp [reMatches, hb] at h

lemma reMatches_seq_inv {a b : RE} {fuel : Nat} {prev : Option Char} {s : Str}
    {pr : Str × Str} (h : pr ∈ reMatches fuel (.seq a b) prev s) :
    ∃ pq qr, pq ∈ reMatches fuel a prev s ∧
      qr ∈ reMatches fuel b (lastChar prev pq.1) pq.2 ∧
      pr = (pq.1 ++ qr.1, qr.2) := by
  simp only [reMatches, List.mem_flatMap, List.mem_map] at h
  obtain ⟨pq, hpq, qr, hqr, heq⟩ := h
  exact ⟨pq, qr, hpq, hqr, heq.symm⟩

/-- Any match of an exactly-counted character-class repetition has exactly
`k` characters, all from the class. -/
lemma reMatches_repN_inv {p : Char → Bool} :
    ∀ (k fuel : Nat) (prev : Option Char) (s : Str) (pr : Str × Str),
      pr ∈ reMatches fuel (repN k (.cls p)) prev s →
      pr.1.length = k ∧ ∀ c ∈ pr.1, p c = true := by
  intro k
  induction k with
  | zero =>
    intro fuel prev s pr h
    cases fuel with
    | zero => simp [repN, reMatches] at h
    | succ f =>
      simp [repN, reMatches] at h
      subst h
      simp
  | succ k ih =>
    intro fuel prev s pr h
    cases fuel with
    | zero => simp [repN, reMatches] at h
    | succ f =>
      simp only [repN, reMatches] at h
      rcases List.mem_append.mp h with hmore | hhere
      · simp only [if_neg (by simp : ¬ some (k + 1) = some 0),
          List.mem_flatMap, List.mem_map] at hmore
        obtain ⟨pq, hpq, qr, hqr, heq⟩ := hmore
        obtain ⟨c, t, hst, hpc, hpq'⟩ := reMatches_cls_inv hpq
        subst hpq'
        have hqr' : qr ∈ reMatches f (repN k (.cls p)) (lastChar prev [c]) t := by
          simpa [decMax, repN] using hqr
        obtain ⟨hlen, hall⟩ := ih f (lastChar prev [c]) t qr hqr'
        subst heq
        constructor
        · simp [hlen]
        · intro d hd
          rcases List.mem_cons.mp (by simpa using hd) with rfl | hd'
          · exact hpc
          · exact hall d hd'
      · simp at hhere

/-- Every match of the SSN pattern is either nine digits or a hyphenated
SSN. -/
lemma length_eq_two {l : Str} (h : l.length = 2) : ∃ a b, l = [a, b] := by
  rcases l with _ | ⟨a, _ | ⟨b, _ | ⟨c, t⟩⟩⟩
  · simp at h
  · simp at h
  · exact ⟨a, b, rfl⟩
  · simp at h

lemma length_eq_three {l : Str} (h : l.length = 3) : ∃ a b c, l = [a, b, c] := by
  rcases l with _ | ⟨a, _ | ⟨b, _ | ⟨c, _ | ⟨d, t⟩⟩⟩⟩
  · simp at h
  · simp at h
  · simp at h
  · exact ⟨a, b, c, rfl⟩
  · simp at h

lemma length_eq_four {l : Str} (h : l.length = 4) : ∃ a b c d, l = [a, b, c, d] := by
  rcases l with _ | ⟨a, _ | ⟨b, _ | ⟨c, _ | ⟨d, _ | ⟨e, t⟩⟩⟩⟩⟩
  · simp at h
  · simp at h
  · simp at h
  · simp at h
  · exact ⟨a, b, c, d, rfl⟩
  · simp at h

lemma reMatches_alt_eq (a b : RE) (fuel : Nat) (prev : Option Char) (s : Str) :
    reMatches fuel (.alt a b) prev s =
      reMatches fuel a prev s ++ reMatches fuel b prev s := by
  rw [reMatches]

lemma ssn_match_shape {fuel : Nat} {prev : Option Char} {s : Str}
    {pr : Str × Str} (h : pr ∈ reMatches fuel ssnRE prev s) :
    (pr.1.length = 9 ∧ ∀ c ∈ pr.1, c.isDigit = true) ∨ HyphSSN pr.1 := by
  simp only [ssnRE] at h
  rw [reMatches_alt_eq] at h
  rcases List.mem_append.mp h with hA | hB
  · right
    obtain ⟨pb, q1, hpb, hq1, he1⟩ := reMatches_seq_inv hA
    rw [reMatches_bnd_inv hpb] at hq1 he1
    obtain ⟨p3, q2, hp3, hq2, he2⟩ := reMatches_seq_inv hq1
    obtain ⟨hl3, hd3⟩ := reMatches_repN_inv 3 fuel _ _ p3 hp3
    obtain ⟨pd1, q3, hpd1, hq3, he3⟩ := reMatches_seq_inv hq2
    obtain ⟨cd1, t1, _, hcd1, hpd1'⟩ := reMatches_cls_inv hpd1
    obtain ⟨p2, q4, hp2, hq4, he4⟩ := reMatches_seq_inv hq3
    obtain ⟨hl2, hd2⟩ := reMatches_repN_inv 2 fuel _ _ p2 hp2
    obtain ⟨pd2, q5, hpd2, hq5, he5⟩ := reMatches_seq_inv hq4
    obtain ⟨cd2, t2, _, hcd2, hpd2'⟩ := reMatches_cls_inv hpd2
    obtain ⟨p4, q6, hp4, hq6, he6⟩ := reMatches_seq_inv hq5
    obtain ⟨hl4, hd4⟩ := reMatches_repN_inv 4 fuel _ _ p4 hp4
    have hq6' := reMatches_bnd_inv hq6
    -- extract the explicit characters
    have hcd1' : cd1 = '-' := by
      have : decide (cd1 = '-') = true := hcd1
      exact of_decide_eq_true this
    have hcd2' : cd2 = '-' := by
      have : decide (cd2 = '-') = true := hcd2
      exact of_decide_eq_true this
    obtain ⟨a1, a2, a3, hu3⟩ := length_eq_three hl3
    obtain ⟨b1, b2, hu2⟩ := length_eq_two hl2
    obtain ⟨c1, c2, c3, c4, hu4⟩ := length_eq_four hl4
    refine ⟨a1, a2, a3, b1, b2, c1, c2, c3, c4,
      ⟨hd3 a1 (by rw [hu3]; simp), hd3 a2 (by rw [hu3]; simp), hd3 a3 (by rw [hu3]; simp),
       hd2 b1 (by rw [hu2]; simp), hd2 b2 (by rw [hu2]; simp),
       hd4 c1 (by rw [hu4]; simp), hd4 c2 (by rw [hu4]; simp),
       hd4 c3 (by rw [hu4]; simp), hd4 c4 (by rw [hu4]; simp)⟩, ?_⟩
    rw [he1, he2, he3, he4, he5, he6]
    rw [hpd1', hpd2', hq6', hcd1', hcd2', hu3, hu2, hu4]
    simp
  · left
    obtain ⟨pb, q1, hpb, hq1, he1⟩ := reMatches_seq_inv hB
    rw [reMatches_bnd_inv hpb] at hq1 he1
    obtain ⟨p9, q2, hp9, hq2, he2⟩ := reMatches_seq_inv hq1
    obtain ⟨hl9, hd9⟩ := reMatches_repN_inv 9 fuel _ _ p9 hp9
    have hq2' := reMatches_bnd_inv hq2
    rw [he1, he2, hq2']
    constructor
    · simp [hl9]
    · intro c hc
      simp at hc
      exact hd9 c hc

lemma lastChar_nil (prev : Option Char) : lastChar prev [] = prev := rfl

lemma lastChar_cons (prev : Option Char) (c : Char) (l : Str) :
    lastChar prev (c :: l) = lastChar (some c) l := by
  cases l with
  | nil => rfl
  | cons d l' =>
    cases hg : (d :: l').getLast? with
    | none => simp at hg
    | some e => simp [lastChar, List.getLast?_cons_cons, hg]

lemma lastChar_ne_nil {prev : Option Char} {l : Str} (h : l ≠ []) :
    lastChar prev l = l.getLast? := by
  cases l with
  | nil => exact absurd rfl h
  | cons c l' =>
    cases hg : (c :: l').getLast? with
    | none => simp at hg
    | some d => simp [lastChar, hg]

/-- A match of the SSN pattern starting strictly inside `pre` cannot reach
past the non-word character that ends `pre` into a hyphenated SSN that
starts right after it. -/
lemma ssn_no_overlap {fuel : Nat} {prev : Option Char} {pre w post u rest : Str}
    (hw : HyphSSN w) (hpre : pre ≠ [])
    (hz : NonWordOpt (lastChar prev pre))
    (hmem : (u, rest) ∈ reMatches fuel ssnRE prev (pre ++ (w ++ post))) :
    u.length ≤ pre.length := by
  by_contra hgt
  push_neg at hgt
  set s := pre ++ (w ++ post) with hs
  have hsplit : s = u ++ rest := reMatches_append fuel ssnRE prev s (u, rest) hmem
  have hzchar : ∃ z, pre.getLast? = some z ∧ isWordChar z = false := by
    rw [lastChar_ne_nil hpre] at hz
    cases hg : pre.getLast? with
    | none => simp [List.getLast?_eq_none_iff] at hg; exact absurd hg hpre
    | some z =>
      rw [hg] at hz
      exact ⟨z, rfl, hz⟩
  obtain ⟨z, hzlast, hzword⟩ := hzchar
  have hj : pre.length - 1 < pre.length := by
    have := List.length_pos.mpr hpre
    omega
  have hsz : s[pre.length - 1]? = some z := by
    rw [hs, List.getElem?_append_left hj, ← List.getLast?_eq_getElem?, hzlast]
  have huz : u[pre.length - 1]? = some z := by
    have hpref : u = s.take u.length := by
      rw [hsplit]
      simp
    rw [hpref, List.getElem?_take, if_pos (by omega), hsz]
  obtain ⟨d1, d2, d3, d4, d5, d6, d7, d8, d9, hd, hweq⟩ := hw
  have hw3 : w[3]? = some '-' := by rw [hweq]; rfl
  have hwlen : w.length = 11 := by rw [hweq]; rfl
  have hsw3 : s[pre.length + 3]? = some '-' := by
    rw [hs, List.getElem?_append_right (by omega)]
    have : pre.length + 3 - pre.length = 3 := by omega
    rw [this, List.getElem?_append_left (by omega), hw3]
  rcases ssn_match_shape hmem with ⟨hlen9, hdig⟩ | hhyph
  · have hzmem : z ∈ u := mem_of_getElem?_eq huz
    have := hdig z hzmem
    rw [isWordChar] at hzword
    simp [this] at hzword
  · obtain ⟨e1, e2, e3, e4, e5, e6, e7, e8, e9, he, hueq0⟩ := hhyph
    have hueq : u = [e1, e2, e3, '-', e4, e5, '-', e6, e7, e8, e9] := hueq0
    have hulen : u.length = 11 := by rw [hueq]; rfl
    have hus : ∀ i, i < 11 → u[i]? = s[i]? := by
      intro i hi
      have hpref : u = s.take u.length := by
        rw [hsplit]
        simp
      rw [hpref, List.getElem?_take, if_pos (by omega)]
    set j := pre.length - 1 with hjdef
    have hj11 : j < 11 := by omega
    have huj : u[j]? = some z := huz
    -- z is a character of the hyphenated match u; since z is not a word
    -- character it must be one of the two dashes.
    have hj36 : j = 3 ∨ j = 6 := by
      rw [hueq] at huj
      obtain ⟨he1, he2, he3, he4, he5, he6, he7, he8, he9⟩ := he
      interval_cases j
      · simp at huj
        subst huj
        simp [isWordChar, he1] at hzword
      · simp at huj
        subst huj
        simp [isWordChar, he2] at hzword
      · simp at huj
        subst huj
        simp [isWordChar, he3] at hzword
      · exact Or.inl rfl
      · simp at huj
        subst huj
        simp [isWordChar, he4] at hzword
      · simp at huj
        subst huj
        simp [isWordChar, he5] at hzword
      · exact Or.inr rfl
      · simp at huj
        subst huj
        simp [isWordChar, he6] at hzword
      · simp at huj
        subst huj
        simp [isWordChar, he7] at hzword
      · simp at huj
        subst huj
        simp [isWordChar, he8] at hzword
      · simp at huj
        subst huj
        simp [isWordChar, he9] at hzword
    have hprelen : pre.length = j + 1 := by omega
    rcases hj36 with hj3 | hj6
    · -- pre.length = 4, so s[7] is the dash w[3], but u[7] is a digit
      have h7 : u[7]? = s[7]? := hus 7 (by omega)
      have : u[7]? = some '-' := by
        rw [h7]
        have : (7 : Nat) = pre.length + 3 := by omega
        rw [this, hsw3]
      rw [hueq] at this
      simp at this
      rw [this] at he
      simp at he
    · -- pre.length = 7, so s[10] is the dash w[3], but u[10] is a digit
      have h10 : u[10]? = s[10]? := hus 10 (by omega)
      have : u[10]? = some '-' := by
        rw [h10]
        have : (10 : Nat) = pre.length + 3 := by omega
        rw [this, hsw3]
      rw [hueq] at this
      simp at this
      rw [this] at he
      simp at he

lemma finditer_cons_none {re : RE} {prev : Option Char} {c : Char} {t : Str}
    (hma : matchAt re prev (c :: t) = none) :
    finditer re prev (c :: t) = finditer re (some c) t := by
  simp only [finditer]
  rw [hma]

lemma finditer_cons_some {re : RE} {prev : Option Char} {c : Char} {t u rest : Str}
    (hma : matchAt re prev (c :: t) = some (u, rest)) (hu : ¬ u.length = 0) :
    finditer re prev (c :: t) =
      u :: finditer re (lastChar prev u) ((c :: t).drop u.length) := by
  simp only [finditer]
  rw [hma]
  simp [hu]

lemma getLast?_drop_ne_nil {l : Str} {k : Nat} (h : l.drop k ≠ []) :
    (l.drop k).getLast? = l.getLast? := by
  conv_rhs => rw [← List.take_append_drop k l]
  exact (List.getLast?_append_of_ne_nil _ h).symm

/-- Scanning bridge: a hyphenated SSN sitting at word boundaries is surely
among the strings `re.finditer` records for the SSN pattern. -/
lemma ssn_finditer_contains {w : Str} (hw : HyphSSN w) :
    ∀ (n : Nat) (pre post : Str) (prev : Option Char),
      (pre ++ (w ++ post)).length ≤ n →
      NonWordOpt (lastChar prev pre) →
      NonWordOpt post.head? →
      w ∈ finditer ssnRE prev (pre ++ (w ++ post)) := by
  have hw11 : w.length = 11 := by
    obtain ⟨d1, d2, d3, d4, d5, d6, d7, d8, d9, hd, hweq⟩ := hw
    rw [hweq]
    rfl
  intro n
  induction n with
  | zero =>
    intro pre post prev hn _ _
    exfalso
    simp only [List.length_append] at hn
    omega
  | succ n ih =>
    intro pre post prev hn hb ha
    cases pre with
    | nil =>
      have hb' : NonWordOpt prev := by
        rw [lastChar_nil] at hb
        exact hb
      have hma : matchAt ssnRE prev (w ++ post) = some (w, post) :=
        ssn_matchAt hw hb' ha
      obtain ⟨d1, d2, d3, d4, d5, d6, d7, d8, d9, hd, hweq⟩ := hw
      subst hweq
      simp only [List.nil_append]
      rw [show ([d1, d2, d3, '-', d4, d5, '-', d6, d7, d8, d9] ++ post : Str) =
        d1 :: (d2 :: d3 :: '-' :: d4 :: d5 :: '-' :: d6 :: d7 :: d8 :: d9 :: post)
        from rfl]
      have hma' : matchAt ssnRE prev
          (d1 :: (d2 :: d3 :: '-' :: d4 :: d5 :: '-' :: d6 :: d7 :: d8 :: d9 :: post)) =
          some ([d1, d2, d3, '-', d4, d5, '-', d6, d7, d8, d9], post) := hma
      rw [finditer_cons_some hma' (by simp)]
      exact List.mem_cons_self _ _
    | cons pc pre' =>
      have hcons : ((pc :: pre') ++ (w ++ post) : Str) =
          pc :: (pre' ++ (w ++ post)) := rfl
      rw [hcons]
      rcases hma : matchAt ssnRE prev (pc :: (pre' ++ (w ++ post))) with _ | ⟨u, rest⟩
      · rw [finditer_cons_none hma]
        apply ih pre' post (some pc)
        · simp only [List.length_append] at hn ⊢
          simp at hn
          omega
        · rw [lastChar_cons] at hb
          exact hb
        · exact ha
      · have hmem : (u, rest) ∈ reMatches
            ((pc :: (pre' ++ (w ++ post))).length + 1) ssnRE prev
            (pc :: (pre' ++ (w ++ post))) :=
          List.mem_of_mem_head? (Option.mem_def.mpr hma)
        have hmem' : (u, rest) ∈ reMatches
            ((pc :: (pre' ++ (w ++ post))).length + 1) ssnRE prev
            ((pc :: pre') ++ (w ++ post)) := hmem
        have hulen : u.length ≤ (pc :: pre').length :=
          ssn_no_overlap hw (by simp) hb hmem'
        have hu0 : ¬ u.length = 0 := by
          rcases ssn_match_shape hmem with ⟨h9, _⟩ | hh
          · simp only [] at h9
            omega
          · obtain ⟨e1, e2, e3, e4, e5, e6, e7, e8, e9, _, hueq⟩ := hh
            have : u = [e1, e2, e3, '-', e4, e5, '-', e6, e7, e8, e9] := hueq
            rw [this]
            simp
        rw [finditer_cons_some hma hu0]
        apply List.mem_cons_of_mem
        have hdrop : (pc :: (pre' ++ (w ++ post))).drop u.length =
            ((pc :: pre').drop u.length) ++ (w ++ post) := by
          rw [← hcons, List.drop_append_of_le_length hulen]
        rw [hdrop]
        have hsplit : (pc :: pre') ++ (w ++ post) = u ++ rest := by
          rw [hcons]
          exact reMatches_append _ ssnRE prev _ (u, rest) hmem
        apply ih ((pc :: pre').drop u.length) post (lastChar prev u)
        · simp only [List.length_append, List.length_drop] at hn ⊢
          simp only [List.length_cons] at *
          omega
        · -- the character before `w` is unchanged by the jump
          cases hdnil : (pc :: pre').drop u.length with
          | nil =>
            rw [lastChar_nil]
            have hle : (pc :: pre').length ≤ u.length := by
              have := List.drop_eq_nil_iff.mp hdnil
              omega
            have hueq : u = pc :: pre' := by
              have hpref : u <+: (pc :: pre') ++ (w ++ post) :=
                ⟨rest, hsplit.symm⟩
              have h2 : (pc :: pre') <+: (pc :: pre') ++ (w ++ post) :=
                List.prefix_append _ _
              have := List.prefix_of_prefix_length_le h2 hpref hle
              exact (this.eq_of_length (by omega)).symm
            rw [hueq]
            exact hb
          | cons q qs =>
            rw [lastChar_ne_nil (by simp), ← hdnil,
              getLast?_drop_ne_nil (by rw [hdnil]; simp)]
            rw [lastChar_ne_nil (by simp)] at hb
            exact hb
        · exact ha

/-!
## Character facts about the patterns and the replacement tokens
-/

/-- No pattern ever consumes a square bracket. -/
def notBracket (c : Char) : Bool := decide (c ≠ '[' ∧ c ≠ ']')

def isDigitDash (c : Char) : Bool := c.isDigit || c = '-'

lemma alphOK_cls {q p : Char → Bool} (h : ∀ c, p c = true → q c = true) :
    AlphOK q (.cls p) := h

lemma alphOK_seq {q : Char → Bool} {a b : RE} (h1 : AlphOK q a) (h2 : AlphOK q b) :
    AlphOK q (.seq a b) := ⟨h1, h2⟩

lemma alphOK_alt {q : Char → Bool} {a b : RE} (h1 : AlphOK q a) (h2 : AlphOK q b) :
    AlphOK q (.alt a b) := ⟨h1, h2⟩

lemma alphOK_rep {q : Char → Bool} {lo : Nat} {hi : Option Nat} {r : RE}
    (h : AlphOK q r) : AlphOK q (.rep lo hi r) := h

lemma alphOK_bnd {q : Char → Bool} : AlphOK q .bnd := trivial

lemma alphOK_altList {q : Char → Bool} :
    ∀ {L : List RE}, (∀ re ∈ L, AlphOK q re) → AlphOK q (altList L) := by
  intro L
  induction L with
  | nil =>
    intro _
    exact fun c h => by simp at h
  | cons a t ih =>
    intro h
    cases t with
    | nil => exact h a (by simp)
    | cons b t' =>
      exact alphOK_alt (h a (by simp)) (ih (fun re hre => h re (by simp [hre])))

lemma alphOK_litAux {q : Char → Bool} {f : Char → RE} :
    ∀ {wd : Str}, (∀ c ∈ wd, AlphOK q (f c)) → AlphOK q (litAux f wd) := by
  intro wd
  induction wd with
  | nil =>
    intro _
    exact alphOK_rep (fun c h => by simp at h)
  | cons a t ih =>
    intro h
    cases t with
    | nil => exact h a (by simp)
    | cons b t' =>
      exact alphOK_seq (h a (by simp)) (ih (fun c hc => h c (by simp [hc])))

/-- A class that rejects both brackets only produces bracket-free output. -/
lemma imp_notBracket {p : Char → Bool} (h1 : p '[' = false) (h2 : p ']' = false) :
    ∀ c, p c = true → notBracket c = true := by
  intro c hc
  have hc1 : c ≠ '[' := by
    intro he
    rw [he, h1] at hc
    exact Bool.noConfusion hc
  have hc2 : c ≠ ']' := by
    intro he
    rw [he, h2] at hc
    exact Bool.noConfusion hc
  exact decide_eq_true ⟨hc1, hc2⟩

lemma alph_nb_clsDigit : AlphOK notBracket clsDigit :=
  alphOK_cls (imp_notBracket (by decide) (by decide))

lemma alph_nb_clsSpace : AlphOK notBracket clsSpace :=
  alphOK_cls (imp_notBracket (by decide) (by decide))

lemma alph_nb_chCI {c0 : Char} (h1 : c0.toLower ≠ '[') (h2 : c0.toLower ≠ ']') :
    AlphOK notBracket (chCI c0) := by
  apply alphOK_cls
  apply imp_notBracket
  · show decide (('[' : Char).toLower = c0.toLower) = false
    apply decide_eq_false
    rw [show ('[' : Char).toLower = '[' from by decide]
    exact fun he => h1 he.symm
  · show decide ((']' : Char).toLower = c0.toLower) = false
    apply decide_eq_false
    rw [show (']' : Char).toLower = ']' from by decide]
    exact fun he => h2 he.symm

lemma alph_nb_chEx {c0 : Char} (h1 : c0 ≠ '[') (h2 : c0 ≠ ']') :
    AlphOK notBracket (chEx c0) := by
  apply alphOK_cls
  apply imp_notBracket
  · simpa using fun he => h1 he.symm
  · simpa using fun he => h2 he.symm

lemma alph_nb_ssn : AlphOK notBracket ssnRE :=
  alphOK_alt
    (alphOK_seq alphOK_bnd (alphOK_seq (alphOK_rep alph_nb_clsDigit)
      (alphOK_seq (alphOK_cls (imp_notBracket (by decide) (by decide)))
        (alphOK_seq (alphOK_rep alph_nb_clsDigit)
          (alphOK_seq (alphOK_cls (imp_notBracket (by decide) (by decide)))
            (alphOK_seq (alphOK_rep alph_nb_clsDigit) alphOK_bnd))))))
    (alphOK_seq alphOK_bnd (alphOK_seq (alphOK_rep alph_nb_clsDigit) alphOK_bnd))

lemma alph_dd_ssn : AlphOK isDigitDash ssnRE := by
  have hd : AlphOK isDigitDash clsDigit :=
    alphOK_cls (fun c h => by simp [isDigitDash, h])
  have hdash : AlphOK isDigitDash clsDash :=
    alphOK_cls (fun c h => by
      simp only [isDigitDash]
      rw [of_decide_eq_true h]
      simp)
  exact alphOK_alt
    (alphOK_seq alphOK_bnd (alphOK_seq (alphOK_rep hd)
      (alphOK_seq hdash (alphOK_seq (alphOK_rep hd)
        (alphOK_seq hdash (alphOK_seq (alphOK_rep hd) alphOK_bnd))))))
    (alphOK_seq alphOK_bnd (alphOK_seq (alphOK_rep hd) alphOK_bnd))

lemma alph_nb_phone : AlphOK notBracket phoneRE :=
  alphOK_seq alphOK_bnd (alphOK_seq (alphOK_rep alph_nb_clsDigit)
    (alphOK_seq (alphOK_rep (alphOK_cls (imp_notBracket (by decide) (by decide))))
      (alphOK_seq (alphOK_rep alph_nb_clsDigit)
        (alphOK_seq (alphOK_rep (alphOK_cls (imp_notBracket (by decide) (by decide))))
          (alphOK_seq (alphOK_rep alph_nb_clsDigit) alphOK_bnd)))))

lemma alph_nb_email : AlphOK notBracket emailRE :=
  alphOK_seq alphOK_bnd (alphOK_seq
    (alphOK_rep (alphOK_cls (imp_notBracket (by decide) (by decide))))
    (alphOK_seq (alphOK_cls (imp_notBracket (by decide) (by decide)))
      (alphOK_seq (alphOK_rep (alphOK_cls (imp_notBracket (by decide) (by decide))))
        (alphOK_seq (alphOK_cls (imp_notBracket (by decide) (by decide)))
          (alphOK_seq (alphOK_rep (alphOK_cls (imp_notBracket (by decide) (by decide))))
            alphOK_bnd)))))

lemma alph_nb_mrn : AlphOK notBracket mrnRE :=
  alphOK_seq alphOK_bnd (alphOK_seq
    (alphOK_rep (alphOK_cls (imp_notBracket (by decide) (by decide))))
    (alphOK_seq (alphOK_rep alph_nb_clsDigit) alphOK_bnd))

lemma alph_nb_dob : AlphOK notBracket dobRE :=
  alphOK_seq alphOK_bnd (alphOK_seq (alphOK_rep alph_nb_clsDigit)
    (alphOK_seq (alphOK_cls (imp_notBracket (by decide) (by decide)))
      (alphOK_seq (alphOK_rep alph_nb_clsDigit)
        (alphOK_seq (alphOK_cls (imp_notBracket (by decide) (by decide)))
          (alphOK_seq (alphOK_rep alph_nb_clsDigit) alphOK_bnd)))))

lemma alph_nb_address : AlphOK notBracket addressRE := by
  refine alphOK_seq alphOK_bnd (alphOK_seq (alphOK_rep alph_nb_clsDigit)
    (alphOK_seq (alphOK_rep alph_nb_clsSpace)
      (alphOK_seq (alphOK_rep (alphOK_cls (imp_notBracket (by decide) (by decide))))
        (alphOK_seq ?_ alphOK_bnd))))
  apply alphOK_altList
  intro re hre
  simp only [List.mem_map] at hre
  obtain ⟨sfx, hsfx, hre'⟩ := hre
  subst hre'
  apply alphOK_litAux
  intro c hc
  apply alph_nb_chCI
  · revert c hc
    revert sfx hsfx
    decide
  · revert c hc
    revert sfx hsfx
    decide

lemma alph_nb_zip : AlphOK notBracket zipRE :=
  alphOK_seq alphOK_bnd (alphOK_seq (alphOK_rep alph_nb_clsDigit)
    (alphOK_seq (alphOK_rep (alphOK_seq
      (alphOK_cls (imp_notBracket (by decide) (by decide)))
      (alphOK_rep alph_nb_clsDigit))) alphOK_bnd))

lemma alph_nb_nameGrp : AlphOK notBracket nameGrpRE :=
  alphOK_seq (alphOK_cls (imp_notBracket (by decide) (by decide)))
    (alphOK_seq (alphOK_rep (alphOK_cls (imp_notBracket (by decide) (by decide))))
      (alphOK_rep (alphOK_seq (alphOK_rep alph_nb_clsSpace)
        (alphOK_seq (alphOK_cls (imp_notBracket (by decide) (by decide)))
          (alphOK_rep (alphOK_cls (imp_notBracket (by decide) (by decide))))))))

lemma mustHave_digit_ssn : MustHave Char.isDigit ssnRE :=
  MustHave.alt
    (MustHave.seqRight (MustHave.seqLeft
      (MustHave.rep (MustHave.cls (fun _ h => h)) (by simp))))
    (MustHave.seqRight (MustHave.seqLeft
      (MustHave.rep (MustHave.cls (fun _ h => h)) (by simp))))

lemma mustHave_digit_phone : MustHave Char.isDigit phoneRE :=
  MustHave.seqRight (MustHave.seqLeft
    (MustHave.rep (MustHave.cls (fun _ h => h)) (by simp)))

lemma mustHave_at_email : MustHave (fun c => decide (c = '@')) emailRE :=
  MustHave.seqRight (MustHave.seqRight (MustHave.seqLeft
    (MustHave.cls (fun _ h => h))))

lemma mustHave_digit_mrn : MustHave Char.isDigit mrnRE :=
  MustHave.seqRight (MustHave.seqRight (MustHave.seqLeft
    (MustHave.rep (MustHave.cls (fun _ h => h)) (by simp))))

lemma mustHave_digit_dob : MustHave Char.isDigit dobRE :=
  MustHave.seqRight (MustHave.seqLeft
    (MustHave.rep (MustHave.cls (fun _ h => h)) (by simp)))

lemma mustHave_digit_address : MustHave Char.isDigit addressRE :=
  MustHave.seqRight (MustHave.seqLeft
    (MustHave.rep (MustHave.cls (fun _ h => h)) (by simp)))

lemma mustHave_digit_zip : MustHave Char.isDigit zipRE :=
  MustHave.seqRight (MustHave.seqLeft
    (MustHave.rep (MustHave.cls (fun _ h => h)) (by simp)))

lemma mustHave_lower_nameGrp : MustHave Char.isLower nameGrpRE :=
  MustHave.seqRight (MustHave.seqLeft
    (MustHave.rep (MustHave.cls (fun _ h => h)) (by simp)))

/-- The SSN replacement token. -/
def ssnToken : Str := tokenOf "ssn"

lemma ssnToken_head : ssnToken.head? = some '[' := by decide

lemma ssnToken_last : ssnToken.getLast? = some ']' := by decide

/-- No replacement token contains a digit or a dash. -/
lemma token_digitdash_free :
    ∀ kind ∈ (["ssn", "phone", "email", "mrn", "dob", "address", "zip", "name"] :
      List String), ∀ c ∈ tokenOf kind, isDigitDash c = false := by
  decide

lemma token_ne_nil :
    ∀ kind ∈ (["ssn", "phone", "email", "mrn", "dob", "address", "zip", "name"] :
      List String), tokenOf kind ≠ [] := by
  decide

lemma ssnToken_no_digit : ∀ c ∈ ssnToken, c.isDigit = false := by decide

lemma ssnToken_no_at : ('@' : Char) ∉ ssnToken := by decide

lemma ssnToken_no_lower : ∀ c ∈ ssnToken, c.isLower = false := by decide

/-!
## Effect of the replacement passes on the SSN occurrence and its token
-/

/-- Facts needed about each replaced string of a pass. -/
def GoodRepl (o : Str) : Prop :=
  o ≠ [] ∧ '[' ∉ o ∧ ']' ∉ o ∧ ∃ c ∈ o, c ∉ ssnToken

/-- One replacement step keeps the SSN string absent and the token present. -/
lemma replace_step_preserves {w o tok : Str}
    (hwchars : ∀ c ∈ w, isDigitDash c = true)
    (htok : ∀ c ∈ tok, isDigitDash c = false) (htokne : tok ≠ [])
    (hgood : GoodRepl o) {t : Str}
    (h : ¬ w <:+: t ∧ ssnToken <:+: t) :
    ¬ w <:+: replaceAll o tok t ∧ ssnToken <:+: replaceAll o tok t := by
  obtain ⟨hone, hobl, hobr, hoc⟩ := hgood
  constructor
  · apply not_infix_replaceAll h.1 _ htokne hone
    intro c hcw hct
    have h2 := htok c hct
    rw [hwchars c hcw] at h2
    exact Bool.noConfusion h2
  · exact infix_replaceAll_of_token ssnToken_head ssnToken_last hobl hobr hoc hone h.2

lemma fold_replace_preserves {w tok : Str}
    (hwchars : ∀ c ∈ w, isDigitDash c = true)
    (htok : ∀ c ∈ tok, isDigitDash c = false) (htokne : tok ≠ []) :
    ∀ (ms : List Str), (∀ o ∈ ms, GoodRepl o) → ∀ t : Str,
      (¬ w <:+: t ∧ ssnToken <:+: t) →
      ¬ w <:+: ms.foldl (fun acc o => replaceAll o tok acc) t ∧
        ssnToken <:+: ms.foldl (fun acc o => replaceAll o tok acc) t := by
  intro ms
  induction ms with
  | nil => exact fun _ t h => h
  | cons o ms' ih =>
    intro hg t h
    simp only [List.foldl_cons]
    exact ih (fun o' ho' => hg o' (by simp [ho'])) _
      (replace_step_preserves hwchars htok htokne (hg o (by simp)) h)

/-- Once the SSN string has been replaced, no later replacement with a
digit-and-dash-free token can bring it back. -/
lemma fold_keeps_not_infix {w tok : Str}
    (hwchars : ∀ c ∈ w, isDigitDash c = true)
    (htok : ∀ c ∈ tok, isDigitDash c = false) (htokne : tok ≠ []) :
    ∀ (ms : List Str), (∀ o ∈ ms, o ≠ []) → ∀ t : Str, ¬ w <:+: t →
      ¬ w <:+: ms.foldl (fun acc o => replaceAll o tok acc) t := by
  intro ms
  induction ms with
  | nil => exact fun _ t h => h
  | cons o ms' ih =>
    intro hne t h
    simp only [List.foldl_cons]
    apply ih (fun o' ho' => hne o' (by simp [ho']))
    apply not_infix_replaceAll h _ htokne (hne o (by simp))
    intro c hcw hct
    have h2 := htok c hct
    rw [hwchars c hcw] at h2
    exact Bool.noConfusion h2

/-- The SSN pass removes every occurrence of a matched SSN string. -/
lemma ssn_fold_removes {w : Str}
    (hwchars : ∀ c ∈ w, isDigitDash c = true) (hwne : w ≠ [])
    (htok : ∀ c ∈ ssnToken, isDigitDash c = false) (htokne : ssnToken ≠ []) :
    ∀ (ms : List Str), w ∈ ms → (∀ o ∈ ms, o ≠ []) → ∀ t : Str,
      ¬ w <:+: ms.foldl (fun acc o => replaceAll o ssnToken acc) t := by
  intro ms
  induction ms with
  | nil => intro h; cases h
  | cons o ms' ih =>
    intro hw hne t
    simp only [List.foldl_cons]
    rcases List.mem_cons.mp hw with rfl | hw'
    · apply fold_keeps_not_infix hwchars htok htokne ms'
        (fun o' ho' => hne o' (by simp [ho']))
      apply not_infix_replaceAll_self hwne _ htokne
      intro c hcw hct
      have h2 := htok c hct
      rw [hwchars c hcw] at h2
      exact Bool.noConfusion h2
    · exact ih hw' (fun o' ho' => hne o' (by simp [ho'])) _

/-- Through the SSN pass, either the token has already been planted or the
SSN occurrence is still there. -/
lemma ssn_fold_invariant {w : Str} :
    ∀ (ms : List Str), (∀ o ∈ ms, GoodRepl o) → ∀ t : Str,
      (ssnToken <:+: t ∨ w <:+: t) →
      (ssnToken <:+: ms.foldl (fun acc o => replaceAll o ssnToken acc) t ∨
       w <:+: ms.foldl (fun acc o => replaceAll o ssnToken acc) t) := by
  intro ms
  induction ms with
  | nil => exact fun _ t h => h
  | cons o ms' ih =>
    intro hg t h
    simp only [List.foldl_cons]
    apply ih (fun o' ho' => hg o' (by simp [ho']))
    obtain ⟨hone, hobl, hobr, hoc⟩ := hg o (by simp)
    rcases h with htok | hwin
    · exact Or.inl
        (infix_replaceAll_of_token ssnToken_head ssnToken_last hobl hobr hoc hone htok)
    · by_cases hfire : o <:+: t
      · exact Or.inl (infix_replaceAll_of_mem hone hfire)
      · rw [replaceAll_of_not_contained hfire]
        exact Or.inr hwin

/-!
## Assembling claim C1
-/

lemma digit_not_ssnToken : ∀ c : Char, c.isDigit = true → c ∉ ssnToken := by
  intro c h hc
  have h2 := ssnToken_no_digit c hc
  rw [h] at h2
  exact Bool.noConfusion h2

lemma at_not_ssnToken : ∀ c : Char, decide (c = '@') = true → c ∉ ssnToken := by
  intro c h hc
  rw [of_decide_eq_true h] at hc
  exact ssnToken_no_at hc

lemma lower_not_ssnToken : ∀ c : Char, c.isLower = true → c ∉ ssnToken := by
  intro c h hc
  have h2 := ssnToken_no_lower c hc
  rw [h] at h2
  exact Bool.noConfusion h2

lemma goodRepl_of_pattern {re : RE} (halph : AlphOK notBracket re)
    {q : Char → Bool} (hm : MustHave q re) (hq : ∀ c, q c = true → c ∉ ssnToken)
    {prev : Option Char} {s o : Str} (ho : o ∈ finditer re prev s) : GoodRepl o := by
  have halls := finditer_alph halph ho
  obtain ⟨c, hc, hqc⟩ := finditer_mustHave hm ho
  refine ⟨?_, ?_, ?_, ⟨c, hc, hq c hqc⟩⟩
  · intro he
    rw [he] at hc
    cases hc
  · intro hb
    have := of_decide_eq_true (halls '[' hb)
    exact this.1 rfl
  · intro hb
    have := of_decide_eq_true (halls ']' hb)
    exact this.2 rfl

lemma goodRepl_name {prev : Option Char} {s g : Str}
    (hg : g ∈ finditerName prev s) : GoodRepl g := by
  obtain ⟨fuel, prev0, s0, rest, hmem⟩ := finditerName_mem prev s g hg
  have halls := reMatches_alph fuel nameGrpRE alph_nb_nameGrp prev0 s0 (g, rest) hmem
  obtain ⟨c, hc, hqc⟩ := reMatches_mustHave mustHave_lower_nameGrp fuel prev0 s0 (g, rest) hmem
  refine ⟨?_, ?_, ?_, ⟨c, hc, lower_not_ssnToken c hqc⟩⟩
  · intro he
    rw [he] at hc
    cases hc
  · intro hb
    have := of_decide_eq_true (halls '[' hb)
    exact this.1 rfl
  · intro hb
    have := of_decide_eq_true (halls ']' hb)
    exact this.2 rfl

lemma goodRepl_ssn {prev : Option Char} {s o : Str}
    (ho : o ∈ finditer ssnRE prev s) :
    GoodRepl o ∧ ∀ c ∈ o, isDigitDash c = true := by
  have halls := finditer_alph alph_dd_ssn ho
  obtain ⟨c, hc, hqc⟩ := finditer_mustHave mustHave_digit_ssn ho
  refine ⟨⟨?_, ?_, ?_, ⟨c, hc, digit_not_ssnToken c hqc⟩⟩, halls⟩
  · intro he
    rw [he] at hc
    cases hc
  · intro hb
    have := halls '[' hb
    exact Bool.noConfusion this
  · intro hb
    have := halls ']' hb
    exact Bool.noConfusion this

lemma hyphssn_chars {w : Str} (hw : HyphSSN w) : ∀ c ∈ w, isDigitDash c = true := by
  obtain ⟨d1, d2, d3, d4, d5, d6, d7, d8, d9, hd, hweq⟩ := hw
  obtain ⟨h1, h2, h3, h4, h5, h6, h7, h8, h9⟩ := hd
  subst hweq
  intro c hc
  simp only [List.mem_cons, List.not_mem_nil, or_false] at hc
  rcases hc with rfl | rfl | rfl | rfl | rfl | rfl | rfl | rfl | rfl | rfl | rfl
  · simp [isDigitDash, h1]
  · simp [isDigitDash, h2]
  · simp [isDigitDash, h3]
  · decide
  · simp [isDigitDash, h4]
  · simp [isDigitDash, h5]
  · decide
  · simp [isDigitDash, h6]
  · simp [isDigitDash, h7]
  · simp [isDigitDash, h8]
  · simp [isDigitDash, h9]

lemma hyphssn_ne_nil {w : Str} (hw : HyphSSN w) : w ≠ [] := by
  obtain ⟨d1, d2, d3, d4, d5, d6, d7, d8, d9, _, hweq⟩ := hw
  rw [hweq]
  simp

lemma redactAll_fst :
    ∀ (ps : List (String × RE)) (acc : Str × List (String × Str)),
      (redactAll ps acc).1 = ps.foldl (fun t p => (redactPass p.1 p.2 t).1) acc.1 := by
  intro ps
  induction ps with
  | nil => intro acc; rfl
  | cons p ps' ih =>
    intro acc
    simp only [redactAll, List.foldl_cons] at *
    rw [ih]

/-- The SSN pass plants the token and deletes the matched SSN string. -/
lemma ssn_pass_result {text w : Str} (hw : HyphSSN w)
    (hwin : w ∈ finditer ssnRE none text) (hocc : w <:+: text) :
    ¬ w <:+: (redactPass "ssn" ssnRE text).1 ∧
      ssnToken <:+: (redactPass "ssn" ssnRE text).1 := by
  have htok : ∀ c ∈ ssnToken, isDigitDash c = false :=
    token_digitdash_free "ssn" (by simp)
  have htokne : ssnToken ≠ [] := token_ne_nil "ssn" (by simp)
  have hgood : ∀ o ∈ finditer ssnRE none text, GoodRepl o :=
    fun o ho => (goodRepl_ssn ho).1
  have hnonnil : ∀ o ∈ finditer ssnRE none text, o ≠ [] :=
    fun o ho => (hgood o ho).1
  have hnot : ¬ w <:+: (redactPass "ssn" ssnRE text).1 :=
    ssn_fold_removes (hyphssn_chars hw) (hyphssn_ne_nil hw) htok htokne
      (finditer ssnRE none text) hwin hnonnil text
  refine ⟨hnot, ?_⟩
  rcases ssn_fold_invariant (finditer ssnRE none text) hgood text (Or.inr hocc)
    with h | h
  · exact h
  · exact absurd h hnot

/-- Every later pass (a structured pattern with its own token) preserves
both facts. -/
lemma pattern_pass_preserves {kind : String} {re : RE}
    (halph : AlphOK notBracket re) {q : Char → Bool} (hm : MustHave q re)
    (hq : ∀ c, q c = true → c ∉ ssnToken)
    (htok : ∀ c ∈ tokenOf kind, isDigitDash c = false)
    (htokne : tokenOf kind ≠ []) {w : Str}
    (hwchars : ∀ c ∈ w, isDigitDash c = true) {t : Str}
    (h : ¬ w <:+: t ∧ ssnToken <:+: t) :
    ¬ w <:+: (redactPass kind re t).1 ∧ ssnToken <:+: (redactPass kind re t).1 :=
  fold_replace_preserves hwchars htok htokne (finditer re none t)
    (fun o ho => goodRepl_of_pattern halph hm hq ho) t h

/-- The name-heuristic pass preserves both facts. -/
lemma name_pass_preserves {w : Str} (hwchars : ∀ c ∈ w, isDigitDash c = true)
    {t : Str} (h : ¬ w <:+: t ∧ ssnToken <:+: t) :
    ¬ w <:+: (finditerName none t).foldl
        (fun t g => replaceAll g (tokenOf "name") t) t ∧
      ssnToken <:+: (finditerName none t).foldl
        (fun t g => replaceAll g (tokenOf "name") t) t :=
  fold_replace_preserves hwchars (token_digitdash_free "name" (by simp))
    (token_ne_nil "name" (by simp)) (finditerName none t)
    (fun g hg => goodRepl_name hg) t h

/-- A hyphenated SSN occurring at word boundaries in the text. -/
def OccursAtBoundary (text w : Str) : Prop :=
  ∃ pre post : Str, text = pre ++ (w ++ post) ∧
    NonWordOpt (lastChar none pre) ∧ NonWordOpt post.head?

/-- C1: for every input text containing a substring matching the well-formed
SSN pattern `ddd-dd-dddd` at word boundaries, the text returned by
`redact_phi` contains no occurrence of that matched digit string and
contains the token `[REDACTED_SSN]`. -/
theorem C1_ssn_redaction (text w : Str) (hw : HyphSSN w)
    (hocc : OccursAtBoundary text w) :
    ¬ w <:+: (redact_phi text).1 ∧ ssnToken <:+: (redact_phi text).1 := by
  obtain ⟨pre, post, htext, hb, ha⟩ := hocc
  have hwin : w ∈ finditer ssnRE none text := by
    rw [htext]
    exact ssn_finditer_contains hw (pre ++ (w ++ post)).length pre post none
      le_rfl hb ha
  have hinf : w <:+: text := by
    rw [htext]
    exact ⟨pre, post, by rw [List.append_assoc]⟩
  have hfst : (redact_phi text).1 =
      (finditerName none ((redactAll phiPatterns (text, [])).1)).foldl
        (fun t g => replaceAll g (tokenOf "name") t)
        ((redactAll phiPatterns (text, [])).1) := rfl
  rw [hfst]
  apply name_pass_preserves (hyphssn_chars hw)
  have hfold : (redactAll phiPatterns (text, ([] : List (String × Str)))).1 =
      (redactPass "zip" zipRE ((redactPass "address" addressRE ((redactPass "dob" dobRE
        ((redactPass "mrn" mrnRE ((redactPass "email" emailRE ((redactPass "phone" phoneRE
          ((redactPass "ssn" ssnRE text).1)).1)).1)).1)).1)).1)).1 := by
    rw [redactAll_fst]
    simp only [phiPatterns, List.foldl_cons, List.foldl_nil]
  rw [hfold]
  apply pattern_pass_preserves alph_nb_zip mustHave_digit_zip digit_not_ssnToken
    (token_digitdash_free "zip" (by simp)) (token_ne_nil "zip" (by simp))
    (hyphssn_chars hw)
  apply pattern_pass_preserves alph_nb_address mustHave_digit_address
    digit_not_ssnToken (token_digitdash_free "address" (by simp))
    (token_ne_nil "address" (by simp)) (hyphssn_chars hw)
  apply pattern_pass_preserves alph_nb_dob mustHave_digit_dob digit_not_ssnToken
    (token_digitdash_free "dob" (by simp)) (token_ne_nil "dob" (by simp))
    (hyphssn_chars hw)
  apply pattern_pass_preserves alph_nb_mrn mustHave_digit_mrn digit_not_ssnToken
    (token_digitdash_free "mrn" (by simp)) (token_ne_nil "mrn" (by simp))
    (hyphssn_chars hw)
  apply pattern_pass_preserves alph_nb_email mustHave_at_email at_not_ssnToken
    (token_digitdash_free "email" (by simp)) (token_ne_nil "email" (by simp))
    (hyphssn_chars hw)
  apply pattern_pass_preserves alph_nb_phone mustHave_digit_phone digit_not_ssnToken
    (token_digitdash_free "phone" (by simp)) (token_ne_nil "phone" (by simp))
    (hyphssn_chars hw)
  exact ssn_pass_result hw hwin hinf

/-- Witness for C1 at the concrete input `"SSN 123-45-6789 ok"`. -/
theorem C1_ssn_redaction_witness :
    HyphSSN ("123-45-6789".toList) ∧
    OccursAtBoundary ("SSN 123-45-6789 ok".toList) ("123-45-6789".toList) ∧
    (¬ ("123-45-6789".toList) <:+: (redact_phi ("SSN 123-45-6789 ok".toList)).1 ∧
      ssnToken <:+: (redact_phi ("SSN 123-45-6789 ok".toList)).1) := by
  have h1 : HyphSSN ("123-45-6789".toList) :=
    ⟨'1', '2', '3', '4', '5', '6', '7', '8', '9', by decide, by decide⟩
  have h2 : OccursAtBoundary ("SSN 123-45-6789 ok".toList) ("123-45-6789".toList) :=
    ⟨"SSN ".toList, " ok".toList, by decide,
      show isWordChar ' ' = false by decide,
      show isWordChar ' ' = false by decide⟩
  exact ⟨h1, h2, C1_ssn_redaction _ _ h1 h2⟩

/-!
## Claim C7: already-redacted text
-/

/-- No PHI classifier (nor the name heuristic) finds any match in the
text. -/
def noPhiMatches (text : Str) : Prop :=
  (∀ p ∈ phiPatterns, finditer p.2 none text = []) ∧ finditerName none text = []

lemma redactAll_of_no_matches :
    ∀ (ps : List (String × RE)) (acc : Str × List (String × Str)),
      (∀ p ∈ ps, finditer p.2 none acc.1 = []) → redactAll ps acc = acc := by
  intro ps
  induction ps with
  | nil => intro acc _; rfl
  | cons p ps' ih =>
    intro acc h
    have hp0 := h p (by simp)
    simp only [redactAll, List.foldl_cons]
    show List.foldl _
      ((redactPass p.1 p.2 acc.1).1, acc.2 ++ (redactPass p.1 p.2 acc.1).2) ps' = acc
    have hstep : redactPass p.1 p.2 acc.1 = (acc.1, []) := by
      simp [redactPass, hp0]
    rw [hstep]
    simp only [List.append_nil]
    have := ih (acc.1, acc.2) (fun p' hp' => h p' (by simp [hp']))
    simpa [redactAll] using this

/-- C7: on input in which no PHI pattern (and not the name heuristic) finds
any match — in particular on text consisting only of `[REDACTED_<KIND>]`
tokens and non-sensitive filler — `redact_phi` produces no additional
matches: it returns the input unchanged with an empty match list. -/
theorem C7_redact_already_redacted (text : Str) (h : noPhiMatches text) :
    redact_phi text = (text, []) := by
  obtain ⟨hp, hn⟩ := h
  have hAll : redactAll phiPatterns (text, ([] : List (String × Str))) = (text, []) :=
    redactAll_of_no_matches phiPatterns (text, []) hp
  show ((finditerName none ((redactAll phiPatterns (text, [])).1)).foldl
      (fun t g => replaceAll g (tokenOf "name") t)
      ((redactAll phiPatterns (text, [])).1),
    (redactAll phiPatterns (text, [])).2 ++
      (finditerName none ((redactAll phiPatterns (text, [])).1)).map
        (fun g => ("name", g))) = (text, [])
  rw [hAll]
  simp only []
  rw [hn]
  rfl

/-- If the text lacks every character some `MustHave` pattern requires, the
scanner finds nothing. -/
lemma finditer_eq_nil_of_no_q {q : Char → Bool} {re : RE} (hm : MustHave q re) :
    ∀ (n : Nat) (prev : Option Char) (s : Str), s.length ≤ n →
      (∀ c ∈ s, q c = false) → finditer re prev s = [] := by
  intro n
  induction n with
  | zero =>
    intro prev s hn hs
    have hsnil : s = [] := List.eq_nil_of_length_eq_zero (Nat.le_zero.mp hn)
    subst hsnil
    simp only [finditer]
    rcases hma : matchAt re prev [] with _ | ⟨u, rest⟩
    · rfl
    · exfalso
      have hmem : (u, rest) ∈ reMatches 1 re prev [] :=
        List.mem_of_mem_head? (Option.mem_def.mpr hma)
      have hsplit := reMatches_append 1 re prev [] (u, rest) hmem
      obtain ⟨c, hc, _⟩ := reMatches_mustHave hm 1 prev [] (u, rest) hmem
      have : c ∈ ([] : Str) := by
        rw [hsplit]
        exact List.mem_append_left _ hc
      cases this
  | succ n ih =>
    intro prev s hn hs
    cases s with
    | nil =>
      simp only [finditer]
      rcases hma : matchAt re prev [] with _ | ⟨u, rest⟩
      · rfl
      · exfalso
        have hmem : (u, rest) ∈ reMatches 1 re prev [] :=
          List.mem_of_mem_head? (Option.mem_def.mpr hma)
        have hsplit := reMatches_append 1 re prev [] (u, rest) hmem
        obtain ⟨c, hc, _⟩ := reMatches_mustHave hm 1 prev [] (u, rest) hmem
        have : c ∈ ([] : Str) := by
          rw [hsplit]
          exact List.mem_append_left _ hc
        cases this
    | cons a t =>
      rcases hma : matchAt re prev (a :: t) with _ | ⟨u, rest⟩
      · rw [finditer_cons_none hma]
        exact ih (some a) t (by simp at hn; omega) (fun c hc => hs c (by simp [hc]))
      · exfalso
        have hmem : (u, rest) ∈ reMatches ((a :: t).length + 1) re prev (a :: t) :=
          List.mem_of_mem_head? (Option.mem_def.mpr hma)
        have hsplit := reMatches_append _ re prev (a :: t) (u, rest) hmem
        obtain ⟨c, hc, hqc⟩ := reMatches_mustHave hm _ prev (a :: t) (u, rest) hmem
        have hcs : c ∈ a :: t := by
          rw [hsplit]
          exact List.mem_append_left _ hc
        rw [hs c hcs] at hqc
        exact Bool.noConfusion hqc

/-- Without lowercase characters the name heuristic never fires. -/
lemma finditerName_eq_nil_of_no_lower :
    ∀ (n : Nat) (prev : Option Char) (s : Str), s.length ≤ n →
      (∀ c ∈ s, c.isLower = false) → finditerName prev s = [] := by
  have hnone : ∀ (prev : Option Char) (s : Str), (∀ c ∈ s, c.isLower = false) →
      matchName prev s = none := by
    intro prev s hs
    rcases hma : matchName prev s with _ | ⟨u, g, rest⟩
    · rfl
    · exfalso
      have hmem := List.mem_of_mem_head? (Option.mem_def.mpr hma)
      simp only [List.mem_flatMap, List.mem_map] at hmem
      obtain ⟨pr, hpr, qr, hqr, heq⟩ := hmem
      have hsplit1 := reMatches_append _ namePreRE prev s pr hpr
      have hsplit2 := reMatches_append _ nameGrpRE (lastChar prev pr.1) pr.2 qr hqr
      obtain ⟨c, hc, hqc⟩ :=
        reMatches_mustHave mustHave_lower_nameGrp _ (lastChar prev pr.1) pr.2 qr hqr
      have hcs : c ∈ s := by
        rw [hsplit1, hsplit2]
        exact List.mem_append_right _ (List.mem_append_left _ hc)
      rw [hs c hcs] at hqc
      exact Bool.noConfusion hqc
  intro n
  induction n with
  | zero =>
    intro prev s hn hs
    have hsnil : s = [] := List.eq_nil_of_length_eq_zero (Nat.le_zero.mp hn)
    subst hsnil
    simp only [finditerName]
    rw [hnone prev [] hs]
  | succ n ih =>
    intro prev s hn hs
    cases s with
    | nil =>
      simp only [finditerName]
      rw [hnone prev [] hs]
    | cons a t =>
      simp only [finditerName]
      rw [hnone prev (a :: t) hs]
      exact ih (some a) t (by simp at hn; omega) (fun c hc => hs c (by simp [hc]))

/-- Witness for C7 at a concrete already-redacted input. -/
theorem C7_redact_already_redacted_witness :
    noPhiMatches ("[REDACTED_SSN] OK [REDACTED_NAME]".toList) ∧
    redact_phi ("[REDACTED_SSN] OK [REDACTED_NAME]".toList) =
      ("[REDACTED_SSN] OK [REDACTED_NAME]".toList, []) := by
  have hdig : ∀ c ∈ "[REDACTED_SSN] OK [REDACTED_NAME]".toList, c.isDigit = false := by
    decide
  have hat : ∀ c ∈ "[REDACTED_SSN] OK [REDACTED_NAME]".toList,
      decide (c = '@') = false := by decide
  have hlow : ∀ c ∈ "[REDACTED_SSN] OK [REDACTED_NAME]".toList, c.isLower = false := by
    decide
  have h : noPhiMatches ("[REDACTED_SSN] OK [REDACTED_NAME]".toList) := by
    constructor
    · intro p hp
      simp only [phiPatterns, List.mem_cons, List.not_mem_nil, or_false] at hp
      rcases hp with rfl | rfl | rfl | rfl | rfl | rfl | rfl
      · exact finditer_eq_nil_of_no_q mustHave_digit_ssn _ none _ le_rfl hdig
      · exact finditer_eq_nil_of_no_q mustHave_digit_phone _ none _ le_rfl hdig
      · exact finditer_eq_nil_of_no_q mustHave_at_email _ none _ le_rfl hat
      · exact finditer_eq_nil_of_no_q mustHave_digit_mrn _ none _ le_rfl hdig
      · exact finditer_eq_nil_of_no_q mustHave_digit_dob _ none _ le_rfl hdig
      · exact finditer_eq_nil_of_no_q mustHave_digit_address _ none _ le_rfl hdig
      · exact finditer_eq_nil_of_no_q mustHave_digit_zip _ none _ le_rfl hdig
    · exact finditerName_eq_nil_of_no_lower _ none _ le_rfl hlow
  exact ⟨h, C7_redact_already_redacted _ h⟩

/-!
## `InternalDocumentStore` (`src/tools/file_search.py`)

Python dicts are modelled as insertion-ordered association lists.  The
`set(words)` iteration in `add_document` has arbitrary order in Python; it
is modelled by first-occurrence deduplication — the order only influences
the (never observed) key order of the index.  The sha256 content hash, the
metadata mapping and the wall-clock timestamps are omitted: no claim
depends on them.
-/

/-- A stored document (`self.documents[doc_id]`). -/
structure Doc where
  content : Str
  access_count : Nat
deriving DecidableEq

/-- First-match association-list lookup (Python `m[k]` / `k in m`). -/
def alookup {β : Type} : List (Str × β) → Str → Option β
  | [], _ => none
  | (k, v) :: t, key => if k = key then some v else alookup t key

/-- Python `m[k] = v`: assign in place if the key exists (keeping its
position), else append a new entry. -/
def aset {β : Type} : List (Str × β) → Str → β → List (Str × β)
  | [], key, v => [(key, v)]
  | (k, w) :: t, key, v =>
    if k = key then (key, v) :: t else (k, w) :: aset t key v

/-- Update the value at an existing key in place. -/
def aupdate {β : Type} (f : β → β) : List (Str × β) → Str → List (Str × β)
  | [], _ => []
  | (k, v) :: t, key =>
    if k = key then (k, f v) :: t else (k, v) :: aupdate f t key

/-- Python `str.split()`: split on whitespace runs, dropping empties.
`cur` holds the current word reversed. -/
def splitWsAux : Str → Str → List Str
  | [], cur => if cur.isEmpty then [] else [cur.reverse]
  | c :: t, cur =>
    if c.isWhitespace then
      if cur.isEmpty then splitWsAux t [] else cur.reverse :: splitWsAux t []
    else
      splitWsAux t (c :: cur)

def splitWs (s : Str) : List Str := splitWsAux s []

def pyLower (s : Str) : Str := s.map Char.toLower

/-- The in-memory store (`self.documents`, `self.index`); the unused
`encryption_key` env-var field is omitted. -/
structure Store where
  documents : List (Str × Doc)
  index : List (Str × List Str)
deriving DecidableEq

def emptyStore : Store := ⟨[], []⟩

/-- The inner index update for one word of a new document. -/
def indexAdd (idx : List (Str × List Str)) (w : Str) (doc_id : Str) :
    List (Str × List Str) :=
  match alookup idx w with
  | none => aset idx w [doc_id]
  | some ids => if doc_id ∈ ids then idx else aset idx w (ids ++ [doc_id])

/-- `InternalDocumentStore.add_document` (hash computation omitted). -/
def add_document (st : Store) (doc_id content : Str) : Store :=
  let documents := aset st.documents doc_id { content := content, access_count := 0 }
  let words := splitWs (pyLower content)
  let index := words.dedup.foldl (fun idx w => indexAdd idx w doc_id) st.index
  { documents := documents, index := index }

/-- `doc_scores[doc_id] += 1` with dict-style creation at count `1`. -/
def bump (sc : List (Str × Nat)) (d : Str) : List (Str × Nat) :=
  match alookup sc d with
  | none => sc ++ [(d, 1)]
  | some n => aset sc d (n + 1)

/-- The score accumulation loop of `search`. -/
def docScores (st : Store) (query_words : List Str) : List (Str × Nat) :=
  query_words.foldl
    (fun sc w =>
      match alookup st.index w with
      | none => sc
      | some ids => ids.foldl bump sc)
    []

/-- Stable descending insertion (equal scores keep first-come order), the
behaviour of Python `sorted(..., key=score, reverse=True)`. -/
def insGE (x : Str × Nat) : List (Str × Nat) → List (Str × Nat)
  | [] => [x]
  | y :: ys => if x.2 ≤ y.2 then y :: insGE x ys else x :: y :: ys

def sortDesc (l : List (Str × Nat)) : List (Str × Nat) :=
  l.foldl (fun acc x => insGE x acc) []

/-- Python `str.find` (first occurrence index). -/
def strFindAux (needle : Str) : Str → Nat → Option Nat
  | hay, i =>
    if needle.isPrefixOf hay then some i
    else
      match hay with
      | [] => none
      | _ :: t => strFindAux needle t (i + 1)

def strFind (hay needle : Str) : Option Nat := strFindAux needle hay 0

/-- `InternalDocumentStore._extract_snippet` with `context_size = 50`. -/
def extract_snippet (content : Str) (query_words : List Str) : Str :=
  let content_lower := pyLower content
  let first_pos := query_words.foldl
    (fun fp w =>
      match strFind content_lower w with
      | some p => if p < fp then p else fp
      | none => fp)
    content.length
  let start := first_pos - 50
  let stop := min content.length (first_pos + 50 + 20)
  let snippet := (content.drop start).take (stop - start)
  let snippet := if 0 < start then "...".toList ++ snippet else snippet
  let snippet := if stop < content.length then snippet ++ "...".toList else snippet
  snippet

/-- One entry of `search`'s result list (metadata and the `accessed_at`
timestamp omitted). -/
structure SearchResult where
  doc_id : Str
  score : Nat
  snippet : Str
deriving DecidableEq

/-- The result loop of `search`: look each scored document up (a missing id
would raise `KeyError`, modelled as `none`), increment its access counter
and emit a result row. -/
def searchLoop (query_words : List Str) :
    List (Str × Nat) → List (Str × Doc) → List SearchResult →
    Option (List (Str × Doc) × List SearchResult)
  | [], docs, acc => some (docs, acc)
  | (d, score) :: rest, docs, acc =>
    match alookup docs d with
    | none => none
    | some doc =>
      searchLoop query_words rest
        (aupdate (fun doc => { doc with access_count := doc.access_count + 1 }) docs d)
        (acc ++ [{ doc_id := d, score := score,
                   snippet := extract_snippet doc.content query_words }])

/-- `InternalDocumentStore.search`. -/
def search (st : Store) (query : Str) (limit : Nat) :
    Option (Store × List SearchResult) :=
  let query_words := splitWs (pyLower query)
  let sorted_docs := (sortDesc (docScores st query_words)).take limit
  match searchLoop query_words sorted_docs st.documents [] with
  | none => none
  | some (docs, results) => some ({ st with documents := docs }, results)

/-- Does any posting list of word `w` contain document `d`? -/
def wordHit (st : Store) (d w : Str) : Bool :=
  match alookup st.index w with
  | none => false
  | some ids => decide (d ∈ ids)

/-- States reachable by any sequence of `add_document` and (completing)
`search` calls from a fresh store. -/
inductive Reachable : Store → Prop
  | init : Reachable emptyStore
  | add {st : Store} (doc_id content : Str) :
      Reachable st → Reachable (add_document st doc_id content)
  | searchStep {st st' : Store} {q : Str} {l : Nat} {res : List SearchResult} :
      Reachable st → search st q l = some (st', res) → Reachable st'

/-! ### Association-list lemmas -/
def keys {β : Type} (m : List (Str × β)) : List Str := m.map Prod.fst

theorem alookup_cons_self {β : Type} (k : Str) (v : β) (t : List (Str × β)) :
    alookup ((k, v) :: t) k = some v := by
  simp [alookup]

theorem alookup_cons_ne {β : Type} {k key : Str} (h : k ≠ key) (v : β)
    (t : List (Str × β)) : alookup ((k, v) :: t) key = alookup t key := by
  simp [alookup, h]

theorem aset_cons_self {β : Type} (k : Str) (w v : β) (t : List (Str × β)) :
    aset ((k, w) :: t) k v = (k, v) :: t := by
  simp [aset]

theorem aset_cons_ne {β : Type} {k₁ k : Str} (h : k₁ ≠ k) (w v : β)
    (t : List (Str × β)) : aset ((k₁, w) :: t) k v = (k₁, w) :: aset t k v := by
  simp [aset, h]

theorem aupdate_cons_self {β : Type} (f : β → β) (k : Str) (v : β)
    (t : List (Str × β)) : aupdate f ((k, v) :: t) k = (k, f v) :: t := by
  simp [aupdate]

theorem aupdate_cons_ne {β : Type} {k₁ k : Str} (h : k₁ ≠ k) (f : β → β) (v : β)
    (t : List (Str × β)) : aupdate f ((k₁, v) :: t) k = (k₁, v) :: aupdate f t k := by
  simp [aupdate, h]

theorem alookup_aset {β : Type} (m : List (Str × β)) (k key : Str) (v : β) :
    alookup (aset m k v) key = if k = key then some v else alookup m key := by
  induction m with
  | nil =>
    show alookup [(k, v)] key = _
    by_cases h : k = key
    · subst h
      rw [alookup_cons_self, if_pos rfl]
    · rw [alookup_cons_ne h, if_neg h]
  | cons p t ih =>
    obtain ⟨k₁, w⟩ := p
    by_cases h1 : k₁ = k
    · subst h1
      rw [aset_cons_self]
      by_cases h2 : k₁ = key
      · subst h2
        rw [alookup_cons_self, alookup_cons_self, if_pos rfl]
      · rw [alookup_cons_ne h2, alookup_cons_ne h2, if_neg h2]
    · rw [aset_cons_ne h1]
      by_cases h2 : k₁ = key
      · subst h2
        rw [alookup_cons_self, alookup_cons_self, if_neg (Ne.symm h1)]
      · rw [alookup_cons_ne h2, alookup_cons_ne h2, ih]

theorem alookup_aupdate {β : Type} (f : β → β) (m : List (Str × β)) (k key : Str) :
    alookup (aupdate f m k) key =
      if k = key then (alookup m key).map f else alookup m key := by
  induction m with
  | nil =>
    show alookup [] key = _
    by_cases h : k = key <;> simp [alookup, h]
  | cons p t ih =>
    obtain ⟨k₁, w⟩ := p
    by_cases h1 : k₁ = k
    · subst h1
      rw [aupdate_cons_self]
      by_cases h2 : k₁ = key
      · subst h2
        rw [alookup_cons_self, alookup_cons_self, if_pos rfl]
        rfl
      · rw [alookup_cons_ne h2, alookup_cons_ne h2, if_neg h2]
    · rw [aupdate_cons_ne h1]
      by_cases h2 : k₁ = key
      · subst h2
        rw [alookup_cons_self, alookup_cons_self, if_neg (Ne.symm h1)]
      · rw [alookup_cons_ne h2, alookup_cons_ne h2, ih]

theorem alookup_append {β : Type} (m n : List (Str × β)) (key : Str) :
    alookup (m ++ n) key =
      match alookup m key with
      | some v => some v
      | none => alookup n key := by
  induction m with
  | nil => simp [alookup]
  | cons p t ih =>
    obtain ⟨k₁, w⟩ := p
    by_cases h : k₁ = key
    · subst h
      rw [List.cons_append, alookup_cons_self, alookup_cons_self]
    · rw [List.cons_append, alookup_cons_ne h, alookup_cons_ne h, ih]

theorem alookup_eq_none_iff {β : Type} (m : List (Str × β)) (k : Str) :
    alookup m k = none ↔ k ∉ keys m := by
  induction m with
  | nil => simp [alookup, keys]
  | cons p t ih =>
    obtain ⟨k₁, w⟩ := p
    by_cases h : k₁ = k
    · subst h
      rw [alookup_cons_self]
      simp only [keys, List.map_cons, List.mem_cons]
      constructor
      · intro hh
        exact Option.noConfusion hh
      · intro hh
        exact absurd (Or.inl trivial) hh
    · rw [alookup_cons_ne h, ih]
      simp only [keys, List.map_cons, List.mem_cons]
      constructor
      · intro hh hc
        rcases hc with hc | hc
        · exact h hc.symm
        · exact hh hc
      · intro hh hc
        exact hh (Or.inr hc)

theorem mem_of_alookup_eq_some {β : Type} {m : List (Str × β)} {k : Str} {v : β}
    (h : alookup m k = some v) : (k, v) ∈ m := by
  induction m with
  | nil => simp [alookup] at h
  | cons p t ih =>
    obtain ⟨k₁, w⟩ := p
    by_cases h1 : k₁ = k
    · subst h1
      rw [alookup_cons_self] at h
      injection h with h2
      subst h2
      exact List.mem_cons_self _ _
    · rw [alookup_cons_ne h1] at h
      exact List.mem_cons_of_mem _ (ih h)

theorem alookup_eq_some_of_mem {β : Type} {m : List (Str × β)} {k : Str} {v : β}
    (hnd : (keys m).Nodup) (h : (k, v) ∈ m) : alookup m k = some v := by
  induction m with
  | nil => simp at h
  | cons p t ih =>
    obtain ⟨k₁, w⟩ := p
    simp only [keys, List.map_cons, List.nodup_cons] at hnd
    rcases List.mem_cons.1 h with h | h
    · rw [Prod.mk.injEq] at h
      obtain ⟨h1, h2⟩ := h
      subst h1; subst h2
      exact alookup_cons_self _ _ _
    · have hk : k ∈ keys t := List.mem_map_of_mem Prod.fst h
      have h1 : k₁ ≠ k := by
        intro he
        subst he
        exact hnd.1 hk
      rw [alookup_cons_ne h1]
      exact ih hnd.2 h

theorem keys_aset {β : Type} (m : List (Str × β)) (k : Str) (v : β) :
    keys (aset m k v) =
      if (alookup m k).isSome then keys m else keys m ++ [k] := by
  induction m with
  | nil => simp [aset, alookup, keys]
  | cons p t ih =>
    obtain ⟨k₁, w⟩ := p
    by_cases h : k₁ = k
    · subst h
      rw [aset_cons_self, alookup_cons_self]
      simp [keys]
    · rw [aset_cons_ne h, alookup_cons_ne h]
      show k₁ :: keys (aset t k v) = _
      rw [ih]
      by_cases h2 : (alookup t k).isSome
      · simp [h2, keys]
      · simp [h2, keys]

theorem mem_aset {β : Type} {m : List (Str × β)} {k : Str} {v : β} {p : Str × β}
    (h : p ∈ aset m k v) : p ∈ m ∨ p.1 = k := by
  induction m with
  | nil =>
    have h' : p ∈ [(k, v)] := h
    rw [List.mem_singleton] at h'
    subst h'
    exact Or.inr rfl
  | cons q t ih =>
    obtain ⟨k₁, w⟩ := q
    by_cases h1 : k₁ = k
    · subst h1
      rw [aset_cons_self] at h
      rcases List.mem_cons.1 h with h | h
      · subst h; exact Or.inr rfl
      · exact Or.inl (List.mem_cons_of_mem _ h)
    · rw [aset_cons_ne h1] at h
      rcases List.mem_cons.1 h with h | h
      · subst h; exact Or.inl (List.mem_cons_self _ _)
      · rcases ih h with h | h
        · exact Or.inl (List.mem_cons_of_mem _ h)
        · exact Or.inr h

/-! ### `bump` and `docScores` -/

theorem alookup_bump (sc : List (Str × Nat)) (e d : Str) :
    alookup (bump sc e) d =
      if e = d then some ((alookup sc d).getD 0 + 1) else alookup sc d := by
  unfold bump
  cases he : alookup sc e with
  | none =>
    rw [alookup_append]
    by_cases h : e = d
    · subst h
      rw [he, if_pos rfl, alookup_cons_self]
      rfl
    · rw [if_neg h, alookup_cons_ne h]
      cases hd : alookup sc d with
      | none => rfl
      | some v => rfl
  | some n =>
    rw [alookup_aset]
    by_cases h : e = d
    · subst h
      rw [if_pos rfl, if_pos rfl, he]
      rfl
    · rw [if_neg h, if_neg h]

theorem keys_bump (sc : List (Str × Nat)) (e : Str) :
    keys (bump sc e) =
      if (alookup sc e).isSome then keys sc else keys sc ++ [e] := by
  unfold bump
  cases he : alookup sc e with
  | none =>
    simp only [Option.isSome_none, Bool.false_eq_true, if_false]
    show (sc ++ [(e, 1)]).map Prod.fst = _
    rw [List.map_append]
    rfl
  | some n =>
    rw [keys_aset, he]

theorem keys_bump_nodup {sc : List (Str × Nat)} (h : (keys sc).Nodup) (e : Str) :
    (keys (bump sc e)).Nodup := by
  rw [keys_bump]
  cases he : alookup sc e with
  | some n => simpa using h
  | none =>
    have hne : e ∉ keys sc := (alookup_eq_none_iff sc e).1 he
    simp only [Option.isSome_none, Bool.false_eq_true, if_false]
    exact List.Nodup.append h (List.nodup_singleton e) (by
      intro a ha hb
      rw [List.mem_singleton] at hb
      subst hb
      exact hne ha)

theorem mem_bump {sc : List (Str × Nat)} {e : Str} {p : Str × Nat}
    (h : p ∈ bump sc e) : p ∈ sc ∨ p.1 = e := by
  unfold bump at h
  cases he : alookup sc e with
  | none =>
    rw [he] at h
    rcases List.mem_append.1 h with h | h
    · exact Or.inl h
    · rw [List.mem_singleton] at h
      subst h
      exact Or.inr rfl
  | some n =>
    rw [he] at h
    exact mem_aset h

theorem foldl_bump_lookup (ids : List Str) :
    ∀ (sc : List (Str × Nat)) (d : Str), ids.Nodup →
      alookup (ids.foldl bump sc) d =
        if d ∈ ids then some ((alookup sc d).getD 0 + 1) else alookup sc d := by
  induction ids with
  | nil => intro sc d _; simp
  | cons e rest ih =>
    intro sc d hnd
    rw [List.nodup_cons] at hnd
    rw [List.foldl_cons, ih _ _ hnd.2]
    by_cases hdr : d ∈ rest
    · have hde : d ≠ e := fun h => hnd.1 (h ▸ hdr)
      rw [if_pos hdr, if_pos (List.mem_cons_of_mem _ hdr)]
      rw [alookup_bump, if_neg (fun h => hde h.symm)]
    · rw [if_neg hdr, alookup_bump]
      by_cases hde : e = d
      · subst hde
        rw [if_pos rfl, if_pos (List.mem_cons_self _ _)]
      · rw [if_neg hde, if_neg (by
          intro h
          rcases List.mem_cons.1 h with h | h
          · exact hde h.symm
          · exact hdr h)]

theorem foldl_bump_keys_nodup (ids : List Str) :
    ∀ sc : List (Str × Nat), (keys sc).Nodup → (keys (ids.foldl bump sc)).Nodup := by
  induction ids with
  | nil => intro sc h; simpa using h
  | cons e rest ih =>
    intro sc h
    rw [List.foldl_cons]
    exact ih _ (keys_bump_nodup h e)

theorem mem_foldl_bump (ids : List Str) :
    ∀ (sc : List (Str × Nat)) (p : Str × Nat),
      p ∈ ids.foldl bump sc → p ∈ sc ∨ p.1 ∈ ids := by
  induction ids with
  | nil =>
    intro sc p h
    rw [List.foldl_nil] at h
    exact Or.inl h
  | cons e rest ih =>
    intro sc p h
    rw [List.foldl_cons] at h
    rcases ih _ _ h with h | h
    · rcases mem_bump h with h | h
      · exact Or.inl h
      · exact Or.inr (by rw [h]; exact List.mem_cons_self _ _)
    · exact Or.inr (List.mem_cons_of_mem _ h)

theorem foldl_score_getD (st : Store)
    (hnd : ∀ w ids, alookup st.index w = some ids → ids.Nodup) (ws : List Str) :
    ∀ (sc : List (Str × Nat)) (d : Str),
      (alookup (ws.foldl
          (fun sc w =>
            match alookup st.index w with
            | none => sc
            | some ids => ids.foldl bump sc) sc) d).getD 0 =
        (alookup sc d).getD 0 + ws.countP (fun w => wordHit st d w) := by
  induction ws with
  | nil => intro sc d; simp
  | cons w ws ih =>
    intro sc d
    simp only [List.foldl_cons, List.countP_cons]
    cases hiw : alookup st.index w with
    | none =>
      simp only []
      rw [ih]
      have hw : wordHit st d w = false := by
        unfold wordHit
        rw [hiw]
      rw [hw]
      simp only [Bool.false_eq_true, if_false]
      omega
    | some ids =>
      simp only []
      rw [ih]
      rw [foldl_bump_lookup ids sc d (hnd w ids hiw)]
      have hw : wordHit st d w = decide (d ∈ ids) := by
        unfold wordHit
        rw [hiw]
      rw [hw]
      by_cases hm : d ∈ ids
      · rw [if_pos hm, decide_eq_true hm, if_pos rfl, Option.getD_some]
        omega
      · rw [if_neg hm, decide_eq_false hm]
        simp only [Bool.false_eq_true, if_false]
        omega

theorem docScores_getD (st : Store)
    (hnd : ∀ w ids, alookup st.index w = some ids → ids.Nodup)
    (ws : List Str) (d : Str) :
    (alookup (docScores st ws) d).getD 0 = ws.countP (fun w => wordHit st d w) := by
  unfold docScores
  rw [foldl_score_getD st hnd ws [] d]
  simp [alookup]

theorem foldl_score_keys_nodup (st : Store) (ws : List Str) :
    ∀ sc : List (Str × Nat), (keys sc).Nodup →
      (keys (ws.foldl
        (fun sc w =>
          match alookup st.index w with
          | none => sc
          | some ids => ids.foldl bump sc) sc)).Nodup := by
  induction ws with
  | nil => intro sc h; simpa using h
  | cons w ws ih =>
    intro sc h
    simp only [List.foldl_cons]
    cases hiw : alookup st.index w with
    | none => exact ih _ h
    | some ids => exact ih _ (foldl_bump_keys_nodup ids sc h)

theorem docScores_keys_nodup (st : Store) (ws : List Str) :
    (keys (docScores st ws)).Nodup := by
  unfold docScores
  exact foldl_score_keys_nodup st ws [] (by simp [keys])

theorem foldl_score_mem (st : Store) (ws : List Str) :
    ∀ (sc : List (Str × Nat)) (p : Str × Nat),
      p ∈ ws.foldl
          (fun sc w =>
            match alookup st.index w with
            | none => sc
            | some ids => ids.foldl bump sc) sc →
      p ∈ sc ∨ ∃ w ids, alookup st.index w = some ids ∧ p.1 ∈ ids := by
  induction ws with
  | nil =>
    intro sc p h
    rw [List.foldl_nil] at h
    exact Or.inl h
  | cons w ws ih =>
    intro sc p h
    simp only [List.foldl_cons] at h
    cases hiw : alookup st.index w with
    | none =>
      rw [hiw] at h
      exact ih _ _ h
    | some ids =>
      rw [hiw] at h
      rcases ih _ _ h with h | h
      · rcases mem_foldl_bump ids sc p h with h | h
        · exact Or.inl h
        · exact Or.inr ⟨w, ids, hiw, h⟩
      · exact Or.inr h

theorem docScores_mem_source (st : Store) (ws : List Str) (p : Str × Nat)
    (h : p ∈ docScores st ws) :
    ∃ w ids, alookup st.index w = some ids ∧ p.1 ∈ ids := by
  unfold docScores at h
  rcases foldl_score_mem st ws [] p h with h | h
  · simp at h
  · exact h

/-! ### `sortDesc` -/

theorem insGE_perm (x : Str × Nat) (l : List (Str × Nat)) :
    List.Perm (insGE x l) (x :: l) := by
  induction l with
  | nil => exact List.Perm.refl _
  | cons y ys ih =>
    unfold insGE
    by_cases h : x.2 ≤ y.2
    · rw [if_pos h]
      exact (ih.cons y).trans (List.Perm.swap x y ys)
    · rw [if_neg h]

theorem foldl_insGE_perm (l : List (Str × Nat)) :
    ∀ acc, List.Perm (l.foldl (fun acc x => insGE x acc) acc) (l ++ acc) := by
  induction l with
  | nil => intro acc; simp
  | cons x t ih =>
    intro acc
    simp only [List.foldl_cons, List.cons_append]
    refine (ih (insGE x acc)).trans ?h
    exact (List.Perm.append_left t (insGE_perm x acc)).trans List.perm_middle

theorem sortDesc_perm (l : List (Str × Nat)) : List.Perm (sortDesc l) l := by
  unfold sortDesc
  refine (foldl_insGE_perm l []).trans ?h
  simp

theorem sorted_take_keys_nodup (st : Store) (ws : List Str) (l : Nat) :
    (((sortDesc (docScores st ws)).take l).map Prod.fst).Nodup := by
  have h1 : (keys (docScores st ws)).Nodup := docScores_keys_nodup st ws
  have h2 : ((sortDesc (docScores st ws)).map Prod.fst).Nodup := by
    have hp := (sortDesc_perm (docScores st ws)).map Prod.fst
    exact (List.Perm.nodup_iff hp).2 h1
  rw [List.map_take]
  exact h2.sublist (List.take_sublist l _)

theorem mem_sortDesc_take {l : List (Str × Nat)} {n : Nat} {p : Str × Nat}
    (h : p ∈ (sortDesc l).take n) : p ∈ l :=
  (sortDesc_perm l).mem_iff.1 (List.mem_of_mem_take h)

/-! ### The result loop of `search` -/

theorem searchLoop_spec (qws : List Str) :
    ∀ (todo : List (Str × Nat)) (docs : List (Str × Doc)) (acc : List SearchResult)
      (docsF : List (Str × Doc)) (res : List SearchResult),
      searchLoop qws todo docs acc = some (docsF, res) →
      (todo.map Prod.fst).Nodup →
      res.map (fun r => (r.doc_id, r.score)) =
          acc.map (fun r => (r.doc_id, r.score)) ++ todo ∧
        ∀ d, alookup docsF d =
          if d ∈ todo.map Prod.fst
          then (alookup docs d).map
            (fun doc => { doc with access_count := doc.access_count + 1 })
          else alookup docs d := by
  intro todo
  induction todo with
  | nil =>
    intro docs acc docsF res h _
    simp only [searchLoop, Option.some.injEq, Prod.mk.injEq] at h
    obtain ⟨h1, h2⟩ := h
    subst h1; subst h2
    constructor
    · simp
    · intro d
      simp
  | cons p rest ih =>
    obtain ⟨d₀, sc₀⟩ := p
    intro docs acc docsF res h hnd
    simp only [searchLoop] at h
    cases hlk : alookup docs d₀ with
    | none =>
      rw [hlk] at h
      exact Option.noConfusion h
    | some doc =>
      rw [hlk] at h
      simp only [List.map_cons, List.nodup_cons] at hnd
      obtain ⟨hh, hrest⟩ := hnd
      obtain ⟨hres, hdocs⟩ := ih _ _ _ _ h hrest
      constructor
      · rw [hres, List.map_append]
        simp
      · intro d
        simp only [List.map_cons]
        rw [hdocs d]
        by_cases hdr : d ∈ rest.map Prod.fst
        · have hne : d₀ ≠ d := by
            intro he
            subst he
            exact hh hdr
          rw [if_pos hdr, if_pos (List.mem_cons_of_mem _ hdr)]
          rw [alookup_aupdate, if_neg hne]
        · by_cases hde : d = d₀
          · subst hde
            rw [if_neg hdr, if_pos (List.mem_cons_self _ _)]
            rw [alookup_aupdate, if_pos rfl]
          · rw [if_neg hdr, if_neg (by
              intro hc
              rcases List.mem_cons.1 hc with hc | hc
              · exact hde hc
              · exact hdr hc)]
            rw [alookup_aupdate, if_neg (fun he => hde he.symm)]

theorem searchLoop_isSome (qws : List Str) :
    ∀ (todo : List (Str × Nat)) (docs : List (Str × Doc)) (acc : List SearchResult),
      (∀ p ∈ todo, (alookup docs p.1).isSome = true) →
      (searchLoop qws todo docs acc).isSome = true := by
  intro todo
  induction todo with
  | nil =>
    intro docs acc _
    simp [searchLoop]
  | cons p rest ih =>
    obtain ⟨d₀, sc₀⟩ := p
    intro docs acc hall
    simp only [searchLoop]
    cases hlk : alookup docs d₀ with
    | none =>
      have hc := hall (d₀, sc₀) (List.mem_cons_self _ _)
      rw [hlk] at hc
      exact Bool.noConfusion hc
    | some doc =>
      apply ih
      intro q hq
      rw [alookup_aupdate]
      by_cases h : d₀ = q.1
      · rw [if_pos h]
        have hc := hall q (List.mem_cons_of_mem _ hq)
        cases hv : alookup docs q.1
        · rw [hv] at hc
          exact Bool.noConfusion hc
        · simp [hv]
      · rw [if_neg h]
        exact hall q (List.mem_cons_of_mem _ hq)

/-! ### `add_document` index update -/

/-- The posting list of `w` after `add_document` registers `doc_id` under it. -/
def newPosting (o : Option (List Str)) (d : Str) : List Str :=
  match o with
  | none => [d]
  | some ids => if d ∈ ids then ids else ids ++ [d]

theorem indexAdd_lookup (idx : List (Str × List Str)) (w d w' : Str) :
    alookup (indexAdd idx w d) w' =
      if w = w' then some (newPosting (alookup idx w) d) else alookup idx w' := by
  cases ho : alookup idx w with
  | none =>
    have h1 : indexAdd idx w d = aset idx w [d] := by
      unfold indexAdd
      rw [ho]
    rw [h1, alookup_aset]
    by_cases hw : w = w'
    · rw [if_pos hw, if_pos hw]
      rfl
    · rw [if_neg hw, if_neg hw]
  | some ids =>
    have h1 : indexAdd idx w d =
        if d ∈ ids then idx else aset idx w (ids ++ [d]) := by
      unfold indexAdd
      rw [ho]
    rw [h1]
    by_cases hd : d ∈ ids
    · rw [if_pos hd]
      by_cases hw : w = w'
      · subst hw
        rw [if_pos rfl, ho]
        simp [newPosting, hd]
      · rw [if_neg hw]
    · rw [if_neg hd, alookup_aset]
      by_cases hw : w = w'
      · subst hw
        rw [if_pos rfl, if_pos rfl]
        simp [newPosting, hd]
      · rw [if_neg hw, if_neg hw]

theorem mem_newPosting_self (o : Option (List Str)) (d : Str) :
    d ∈ newPosting o d := by
  cases o with
  | none => exact List.mem_singleton.2 rfl
  | some ids =>
    show d ∈ if d ∈ ids then ids else ids ++ [d]
    by_cases hd : d ∈ ids
    · rw [if_pos hd]; exact hd
    · rw [if_neg hd]
      exact List.mem_append.2 (Or.inr (List.mem_singleton.2 rfl))

theorem mem_newPosting {o : Option (List Str)} {d x : Str}
    (h : x ∈ newPosting o d) : x = d ∨ ∃ ids, o = some ids ∧ x ∈ ids := by
  cases o with
  | none =>
    have h2 : x ∈ [d] := h
    rw [List.mem_singleton] at h2
    exact Or.inl h2
  | some ids =>
    have h2 : x ∈ if d ∈ ids then ids else ids ++ [d] := h
    by_cases hd : d ∈ ids
    · rw [if_pos hd] at h2
      exact Or.inr ⟨ids, rfl, h2⟩
    · rw [if_neg hd] at h2
      rcases List.mem_append.1 h2 with h2 | h2
      · exact Or.inr ⟨ids, rfl, h2⟩
      · rw [List.mem_singleton] at h2
        exact Or.inl h2

theorem subset_newPosting (ids : List Str) (d : Str) :
    ids ⊆ newPosting (some ids) d := by
  show ids ⊆ if d ∈ ids then ids else ids ++ [d]
  by_cases hd : d ∈ ids
  · rw [if_pos hd]
    exact List.Subset.refl _
  · rw [if_neg hd]
    exact List.subset_append_left _ _

theorem newPosting_nodup {o : Option (List Str)} {d : Str}
    (h : ∀ ids, o = some ids → ids.Nodup) : (newPosting o d).Nodup := by
  cases o with
  | none => exact List.nodup_singleton d
  | some ids =>
    show (if d ∈ ids then ids else ids ++ [d]).Nodup
    by_cases hd : d ∈ ids
    · rw [if_pos hd]
      exact h ids rfl
    · rw [if_neg hd]
      exact List.Nodup.append (h ids rfl) (List.nodup_singleton d) (by
        intro a ha hb
        rw [List.mem_singleton] at hb
        subst hb
        exact hd ha)

theorem foldl_indexAdd_mono (d : Str) (ws : List Str) :
    ∀ (idx : List (Str × List Str)) (w : Str) (ids : List Str),
      alookup idx w = some ids →
      ∃ ids2, alookup (ws.foldl (fun idx w => indexAdd idx w d) idx) w = some ids2 ∧
        ids ⊆ ids2 := by
  induction ws with
  | nil =>
    intro idx w ids h
    exact ⟨ids, h, List.Subset.refl _⟩
  | cons v ws ih =>
    intro idx w ids h
    simp only [List.foldl_cons]
    by_cases hv : v = w
    · subst hv
      have hlk : alookup (indexAdd idx v d) v = some (newPosting (alookup idx v) d) := by
        rw [indexAdd_lookup, if_pos rfl]
      rcases ih _ _ _ hlk with ⟨ids2, h2, hsub⟩
      refine ⟨ids2, h2, ?s⟩
      rw [h] at hsub
      exact fun x hx => hsub (subset_newPosting ids d hx)
    · have hlk : alookup (indexAdd idx v d) w = some ids := by
        rw [indexAdd_lookup, if_neg hv]
        exact h
      exact ih _ _ _ hlk

theorem foldl_indexAdd_self (d : Str) (ws : List Str) :
    ∀ (idx : List (Str × List Str)) (w : Str), w ∈ ws →
      ∃ ids, alookup (ws.foldl (fun idx w => indexAdd idx w d) idx) w = some ids ∧
        d ∈ ids := by
  induction ws with
  | nil => intro idx w h; simp at h
  | cons v ws ih =>
    intro idx w hmem
    simp only [List.foldl_cons]
    rcases List.mem_cons.1 hmem with hmem | hmem
    · subst hmem
      have hlk : alookup (indexAdd idx w d) w = some (newPosting (alookup idx w) d) := by
        rw [indexAdd_lookup, if_pos rfl]
      rcases foldl_indexAdd_mono d ws _ _ _ hlk with ⟨ids2, h2, hsub⟩
      exact ⟨ids2, h2, hsub (mem_newPosting_self _ d)⟩
    · exact ih _ _ hmem

theorem foldl_indexAdd_src (d : Str) (ws : List Str) :
    ∀ (idx : List (Str × List Str)) (w : Str) (ids2 : List Str),
      alookup (ws.foldl (fun idx w => indexAdd idx w d) idx) w = some ids2 →
      ∀ x ∈ ids2, x = d ∨ ∃ ids, alookup idx w = some ids ∧ x ∈ ids := by
  induction ws with
  | nil =>
    intro idx w ids2 h x hx
    exact Or.inr ⟨ids2, h, hx⟩
  | cons v ws ih =>
    intro idx w ids2 h x hx
    simp only [List.foldl_cons] at h
    rcases ih _ _ _ h x hx with hc | ⟨ids1, h1, hx1⟩
    · exact Or.inl hc
    · rw [indexAdd_lookup] at h1
      by_cases hv : v = w
      · rw [if_pos hv] at h1
        injection h1 with h1
        subst h1
        rcases mem_newPosting hx1 with hc | ⟨ids0, h0, hx0⟩
        · exact Or.inl hc
        · subst hv
          exact Or.inr ⟨ids0, h0, hx0⟩
      · rw [if_neg hv] at h1
        exact Or.inr ⟨ids1, h1, hx1⟩

theorem foldl_indexAdd_nodup (d : Str) (ws : List Str) :
    ∀ idx : List (Str × List Str),
      (∀ w ids, alookup idx w = some ids → ids.Nodup) →
      ∀ w ids2, alookup (ws.foldl (fun idx w => indexAdd idx w d) idx) w = some ids2 →
        ids2.Nodup := by
  induction ws with
  | nil => intro idx hidx w ids2 h; exact hidx w ids2 h
  | cons v ws ih =>
    intro idx hidx w ids2 h
    simp only [List.foldl_cons] at h
    refine ih _ ?step w ids2 h
    intro w1 ids1 h1
    rw [indexAdd_lookup] at h1
    by_cases hv : v = w1
    · rw [if_pos hv] at h1
      injection h1 with h1
      subst h1
      exact newPosting_nodup (fun ids0 h0 => hidx v ids0 h0)
    · rw [if_neg hv] at h1
      exact hidx w1 ids1 h1

/-! ### Reachable-state invariant -/

theorem add_document_documents (st : Store) (i c : Str) :
    (add_document st i c).documents =
      aset st.documents i { content := c, access_count := 0 } := rfl

theorem add_document_index (st : Store) (i c : Str) :
    (add_document st i c).index =
      (splitWs (pyLower c)).dedup.foldl (fun idx w => indexAdd idx w i) st.index := rfl

theorem search_eq (st : Store) (q : Str) (l : Nat) :
    search st q l =
      match searchLoop (splitWs (pyLower q))
          ((sortDesc (docScores st (splitWs (pyLower q)))).take l) st.documents [] with
      | none => none
      | some (docs, results) => some ({ st with documents := docs }, results) := rfl

/-- The data invariant maintained by the store: posting lists are duplicate
free, every posting id is a stored document, and every distinct lowercase
word of a stored document's content has the document in its posting list. -/
structure StoreInv (st : Store) : Prop where
  postings_nodup : ∀ w ids, alookup st.index w = some ids → ids.Nodup
  ids_stored : ∀ w ids, alookup st.index w = some ids →
    ∀ d ∈ ids, (alookup st.documents d).isSome = true
  content_indexed : ∀ d doc, alookup st.documents d = some doc →
    ∀ w ∈ splitWs (pyLower doc.content), d ∈ (alookup st.index w).getD []

theorem reachable_inv {st : Store} (h : Reachable st) : StoreInv st := by
  induction h with
  | init =>
    refine ⟨?_, ?_, ?_⟩
    · intro w ids h
      simp [emptyStore, alookup] at h
    · intro w ids h
      simp [emptyStore, alookup] at h
    · intro d doc h
      simp [emptyStore, alookup] at h
  | add doc_id content hr ih =>
    rename_i st0
    refine ⟨?_, ?_, ?_⟩
    · intro w ids h
      rw [add_document_index] at h
      exact foldl_indexAdd_nodup doc_id _ _ ih.postings_nodup w ids h
    · intro w ids h d hd
      rw [add_document_index] at h
      rw [add_document_documents, alookup_aset]
      rcases foldl_indexAdd_src doc_id _ _ _ _ h d hd with hc | ⟨ids0, h0, hd0⟩
      · rw [if_pos hc.symm]
        rfl
      · by_cases he : doc_id = d
        · rw [if_pos he]
          rfl
        · rw [if_neg he]
          exact ih.ids_stored w ids0 h0 d hd0
    · intro d doc h w hw
      rw [add_document_documents, alookup_aset] at h
      rw [add_document_index]
      by_cases he : doc_id = d
      · rw [if_pos he] at h
        injection h with h
        subst h
        subst he
        have hw2 : w ∈ (splitWs (pyLower content)).dedup := List.mem_dedup.2 hw
        rcases foldl_indexAdd_self doc_id _ st0.index w hw2 with ⟨ids, hlk, hmem⟩
        rw [hlk]
        exact hmem
      · rw [if_neg he] at h
        have hold := ih.content_indexed d doc h w hw
        cases ho : alookup st0.index w with
        | none =>
          rw [ho] at hold
          simp at hold
        | some ids0 =>
          rw [ho] at hold
          rcases foldl_indexAdd_mono doc_id _ st0.index w ids0 ho with ⟨ids2, h2, hsub⟩
          rw [h2]
          exact hsub hold
  | searchStep hr hs ih =>
    rename_i st0 st1 q l res
    rw [search_eq] at hs
    cases hloop : searchLoop (splitWs (pyLower q))
        ((sortDesc (docScores st0 (splitWs (pyLower q)))).take l) st0.documents [] with
    | none =>
      rw [hloop] at hs
      exact Option.noConfusion hs
    | some p =>
      obtain ⟨docs1, res1⟩ := p
      rw [hloop] at hs
      simp only [Option.some.injEq, Prod.mk.injEq] at hs
      obtain ⟨hst1, hres1⟩ := hs
      obtain ⟨-, hdocs⟩ := searchLoop_spec _ _ _ _ _ _ hloop
        (sorted_take_keys_nodup st0 (splitWs (pyLower q)) l)
      have hidx : st1.index = st0.index := by
        rw [← hst1]
      have hdoc1 : st1.documents = docs1 := by
        rw [← hst1]
      refine ⟨?_, ?_, ?_⟩
      · intro w ids h
        rw [hidx] at h
        exact ih.postings_nodup w ids h
      · intro w ids h d hd
        rw [hidx] at h
        rw [hdoc1, hdocs d]
        by_cases hm : d ∈ (((sortDesc (docScores st0 (splitWs (pyLower q)))).take l).map Prod.fst)
        · rw [if_pos hm]
          have hi := ih.ids_stored w ids h d hd
          cases ho : alookup st0.documents d with
          | none =>
            rw [ho] at hi
            exact Bool.noConfusion hi
          | some doc0 => rfl
        · rw [if_neg hm]
          exact ih.ids_stored w ids h d hd
      · intro d doc h w hw
        rw [hdoc1, hdocs d] at h
        rw [hidx]
        by_cases hm : d ∈ (((sortDesc (docScores st0 (splitWs (pyLower q)))).take l).map Prod.fst)
        · rw [if_pos hm] at h
          cases ho : alookup st0.documents d with
          | none =>
            rw [ho] at h
            exact Option.noConfusion h
          | some doc0 =>
            rw [ho] at h
            injection h with h
            subst h
            exact ih.content_indexed d doc0 ho w hw
        · rw [if_neg hm] at h
          exact ih.content_indexed d doc h w hw

/-- Every result row of a completing `search` carries exactly the score that
`doc_scores` assigned to its document id. -/
theorem search_result_score (st : Store) (q : Str) (l : Nat) (stF : Store)
    (res : List SearchResult) (hs : search st q l = some (stF, res))
    (r : SearchResult) (hr : r ∈ res) :
    alookup (docScores st (splitWs (pyLower q))) r.doc_id = some r.score := by
  rw [search_eq] at hs
  cases hloop : searchLoop (splitWs (pyLower q))
      ((sortDesc (docScores st (splitWs (pyLower q)))).take l) st.documents [] with
  | none =>
    rw [hloop] at hs
    exact Option.noConfusion hs
  | some p =>
    obtain ⟨docs1, res1⟩ := p
    rw [hloop] at hs
    simp only [Option.some.injEq, Prod.mk.injEq] at hs
    obtain ⟨-, hres1⟩ := hs
    subst hres1
    obtain ⟨hres, -⟩ := searchLoop_spec _ _ _ _ _ _ hloop
      (sorted_take_keys_nodup st (splitWs (pyLower q)) l)
    have hp : (r.doc_id, r.score) ∈
        (sortDesc (docScores st (splitWs (pyLower q)))).take l := by
      have hin : (r.doc_id, r.score) ∈
          res1.map (fun r => (r.doc_id, r.score)) :=
        List.mem_map_of_mem (fun r => (r.doc_id, r.score)) hr
      rw [hres] at hin
      simpa using hin
    exact alookup_eq_some_of_mem (docScores_keys_nodup st _) (mem_sortDesc_take hp)

/-- C6 (amended): `search` scores a candidate document by the number of query
token occurrences — counted with multiplicity over `query.lower().split()` —
whose posting list contains that document, so a duplicated query token
contributes once per occurrence. -/
theorem C6_score_counts_occurrences (st : Store) (hst : Reachable st)
    (q : Str) (l : Nat) (stF : Store) (res : List SearchResult)
    (hs : search st q l = some (stF, res)) (r : SearchResult) (hr : r ∈ res) :
    r.score = (splitWs (pyLower q)).countP (fun w => wordHit st r.doc_id w) := by
  have hsc := search_result_score st q l stF res hs r hr
  have hgd := docScores_getD st (reachable_inv hst).postings_nodup
    (splitWs (pyLower q)) r.doc_id
  rw [hsc] at hgd
  exact hgd

/-- C6, the claim as stated is false: on the store holding only the document
`d1` with content `foo`, the query `foo foo` yields score `2` for `d1`, while
only `1` distinct query token has a posting list containing `d1`. -/
theorem C6_counterexample :
    (search (add_document emptyStore ("d1".toList) ("foo".toList))
        ("foo foo".toList) 10).map (fun p => p.2.map (fun r => (r.doc_id, r.score))) =
      some [("d1".toList, 2)] ∧
    (splitWs (pyLower ("foo foo".toList))).dedup.countP
      (fun w => wordHit (add_document emptyStore ("d1".toList) ("foo".toList))
        ("d1".toList) w) = 1 := by
  constructor
  · decide
  · decide

/-- Witness for C6: the amended theorem applied to the one-document store and
the duplicated query `foo foo`. -/
theorem C6_score_counts_occurrences_witness :
    Reachable (add_document emptyStore ("d1".toList) ("foo".toList)) ∧
    ({ doc_id := "d1".toList, score := 2, snippet := "foo".toList } : SearchResult).score =
      (splitWs (pyLower ("foo foo".toList))).countP
        (fun w => wordHit (add_document emptyStore ("d1".toList) ("foo".toList))
          ("d1".toList) w) := by
  refine ⟨Reachable.add _ _ Reachable.init, ?_⟩
  exact C6_score_counts_occurrences _ (Reachable.add _ _ Reachable.init)
    ("foo foo".toList) 10
    ⟨[("d1".toList, ⟨"foo".toList, 1⟩)], [("foo".toList, ["d1".toList])]⟩
    [⟨"d1".toList, 2, "foo".toList⟩] (by decide) _ (by decide)

/-- C8: in every reachable store state, every distinct lowercase
whitespace-delimited word of a stored document's content has that document's
id in the word's posting list. -/
theorem C8_every_word_indexed (st : Store) (hst : Reachable st) (d : Str)
    (doc : Doc) (hd : alookup st.documents d = some doc) (w : Str)
    (hw : w ∈ splitWs (pyLower doc.content)) :
    d ∈ (alookup st.index w).getD [] :=
  (reachable_inv hst).content_indexed d doc hd w hw

/-- Witness for C8 at a concrete store with one two-word document. -/
theorem C8_every_word_indexed_witness :
    "d".toList ∈ (alookup (add_document emptyStore ("d".toList)
      ("Foo bar".toList)).index ("foo".toList)).getD [] :=
  C8_every_word_indexed _ (Reachable.add _ _ Reachable.init) ("d".toList)
    ⟨"Foo bar".toList, 0⟩ (by decide) ("foo".toList) (by decide)

/-- C9 (amended): a completing `search` increments `access_count` by exactly
one for each document id in its result set and leaves the others unchanged;
`add_document` leaves the counters of other ids unchanged but (re)sets the
added id's counter to `0` — so re-adding an existing id also mutates its
access count, contrary to the claim as stated. -/
theorem C9_access_count_mutation (st : Store) (q : Str) (l : Nat) (stF : Store)
    (res : List SearchResult) (hs : search st q l = some (stF, res))
    (d doc_id content : Str) (hd : d ≠ doc_id) :
    (alookup stF.documents d =
      if d ∈ res.map (fun r => r.doc_id)
      then (alookup st.documents d).map
        (fun doc => { doc with access_count := doc.access_count + 1 })
      else alookup st.documents d) ∧
    alookup (add_document st doc_id content).documents d =
      alookup st.documents d ∧
    alookup (add_document st doc_id content).documents doc_id =
      some { content := content, access_count := 0 } := by
  refine ⟨?_, ?_, ?_⟩
  · rw [search_eq] at hs
    cases hloop : searchLoop (splitWs (pyLower q))
        ((sortDesc (docScores st (splitWs (pyLower q)))).take l) st.documents [] with
    | none =>
      rw [hloop] at hs
      exact Option.noConfusion hs
    | some p =>
      obtain ⟨docs1, res1⟩ := p
      rw [hloop] at hs
      simp only [Option.some.injEq, Prod.mk.injEq] at hs
      obtain ⟨hstF, hres1⟩ := hs
      subst hres1
      obtain ⟨hres, hdocs⟩ := searchLoop_spec _ _ _ _ _ _ hloop
        (sorted_take_keys_nodup st (splitWs (pyLower q)) l)
      have hkeys : res1.map (fun r => r.doc_id) =
          ((sortDesc (docScores st (splitWs (pyLower q)))).take l).map Prod.fst := by
        have hres2 : res1.map (fun r => (r.doc_id, r.score)) =
            (sortDesc (docScores st (splitWs (pyLower q)))).take l := by
          rw [hres]
          simp
        have h3 := congrArg (List.map Prod.fst) hres2
        rw [List.map_map] at h3
        exact h3
      have hdF : stF.documents = docs1 := by
        rw [← hstF]
      rw [hdF, hdocs d, hkeys]
  · rw [add_document_documents, alookup_aset, if_neg (fun he => hd he.symm)]
  · rw [add_document_documents, alookup_aset, if_pos rfl]

/-- C9, the claim as stated is false: after a search has raised `d`'s access
count to `1`, re-adding `d` with the same content resets the count to `0`,
so an operation other than `search` mutates `access_count`. -/
theorem C9_counterexample :
    search (add_document emptyStore ("d".toList) ("foo".toList)) ("foo".toList) 10 =
      some (⟨[("d".toList, ⟨"foo".toList, 1⟩)], [("foo".toList, ["d".toList])]⟩,
        [⟨"d".toList, 1, "foo".toList⟩]) ∧
    (alookup (add_document
        (⟨[("d".toList, ⟨"foo".toList, 1⟩)], [("foo".toList, ["d".toList])]⟩ : Store)
        ("d".toList) ("foo".toList)).documents ("d".toList)).map
      (fun doc => doc.access_count) = some 0 := by
  constructor
  · decide
  · decide

/-- Witness for C9: the amended theorem applied to the one-document store,
the query `foo`, and the foreign id `x`. -/
theorem C9_access_count_mutation_witness :
    search (add_document emptyStore ("d".toList) ("foo".toList)) ("foo".toList) 10 =
      some (⟨[("d".toList, ⟨"foo".toList, 1⟩)], [("foo".toList, ["d".toList])]⟩,
        [⟨"d".toList, 1, "foo".toList⟩]) ∧
    "x".toList ≠ "d2".toList ∧
    ((alookup (⟨[("d".toList, ⟨"foo".toList, 1⟩)],
          [("foo".toList, ["d".toList])]⟩ : Store).documents ("x".toList) =
        if "x".toList ∈ ([⟨"d".toList, 1, "foo".toList⟩] :
            List SearchResult).map (fun r => r.doc_id)
        then (alookup (add_document emptyStore ("d".toList)
            ("foo".toList)).documents ("x".toList)).map
          (fun doc => { doc with access_count := doc.access_count + 1 })
        else alookup (add_document emptyStore ("d".toList)
          ("foo".toList)).documents ("x".toList)) ∧
      alookup (add_document (add_document emptyStore ("d".toList) ("foo".toList))
          ("d2".toList) ("bar".toList)).documents ("x".toList) =
        alookup (add_document emptyStore ("d".toList)
          ("foo".toList)).documents ("x".toList) ∧
      alookup (add_document (add_document emptyStore ("d".toList) ("foo".toList))
          ("d2".toList) ("bar".toList)).documents ("d2".toList) =
        some { content := "bar".toList, access_count := 0 }) := by
  refine ⟨by decide, by decide, ?_⟩
  exact C9_access_count_mutation (add_document emptyStore ("d".toList) ("foo".toList))
    ("foo".toList) 10
    ⟨[("d".toList, ⟨"foo".toList, 1⟩)], [("foo".toList, ["d".toList])]⟩
    [⟨"d".toList, 1, "foo".toList⟩] (by decide)
    ("x".toList) ("d2".toList) ("bar".toList) (by decide)

/-- C10: in every reachable store state every id in any posting list is a key
of the documents map, and consequently `search` always completes — the
document lookup in its result loop never hits a missing key. -/
theorem C10_lookup_safe (st : Store) (hst : Reachable st) :
    (∀ w ids, alookup st.index w = some ids →
      ∀ d ∈ ids, (alookup st.documents d).isSome = true) ∧
    ∀ q l, (search st q l).isSome = true := by
  have inv := reachable_inv hst
  refine ⟨inv.ids_stored, ?_⟩
  intro q l
  rw [search_eq]
  have hall : ∀ p ∈ (sortDesc (docScores st (splitWs (pyLower q)))).take l,
      (alookup st.documents p.1).isSome = true := by
    intro p hp
    rcases docScores_mem_source st _ p (mem_sortDesc_take hp) with ⟨w, ids, hw, hpd⟩
    exact inv.ids_stored w ids hw p.1 hpd
  have hls := searchLoop_isSome (splitWs (pyLower q)) _ st.documents [] hall
  cases hloop : searchLoop (splitWs (pyLower q))
      ((sortDesc (docScores st (splitWs (pyLower q)))).take l) st.documents [] with
  | none =>
    rw [hloop] at hls
    exact Bool.noConfusion hls
  | some p =>
    obtain ⟨docs1, res1⟩ := p
    rfl

/-- Witness for C10 at a concrete reachable store and query. -/
theorem C10_lookup_safe_witness :
    (search (add_document emptyStore ("d".toList) ("foo".toList))
      ("bar foo".toList) 3).isSome = true :=
  (C10_lookup_safe _ (Reachable.add _ _ Reachable.init)).2 ("bar foo".toList) 3

/-!
## `BrowserActionController` (`src/tools/browser_action.py`)

An action is a Python dict; the module reads only its `type`, `url` and
`target` keys, so those are modelled as `Option` fields (`none` = key
absent).  The md5-of-timestamp plan id is not computable here, so
`create_action_plan` takes the generated id as a parameter; `created_at`,
`confirmed_at`, the human-readable description, execution logs, screenshots
and the simulated duration are omitted — no claim mentions them.
-/

structure Action where
  type : Option Str
  url : Option Str
  target : Option Str
deriving DecidableEq

def SENSITIVE_ACTIONS : List Str :=
  ["login".toList, "submit_form".toList, "download".toList, "upload".toList,
   "click_submit".toList, "enter_password".toList, "enter_credentials".toList]

/-- Python `sub in s` on strings. -/
def strContains (s sub : Str) : Bool := decide (sub <:+: s)

structure ValidationResult where
  valid : Bool
  warnings : List Str
  error : Option Str
deriving DecidableEq

/-- One iteration of the `validate_browser_actions` loop: `Sum.inl` is an
early `return validation_result`, `Sum.inr` the warnings carried to the next
action.  The second `elif action_type == "type"` branch of the source is
kept even though the preceding `elif action_type in ["click", "type"]`
already captures every `type` action. -/
def validateStep (action : Action) (i : Nat) (warnings : List Str) :
    Sum ValidationResult (List Str) :=
  match action.type with
  | none =>
    Sum.inl ⟨false, warnings,
      some ("Action ".toList ++ (toString (i + 1)).toList ++ " missing 'type' field".toList)⟩
  | some action_type =>
    if action_type = "navigate".toList then
      match action.url with
      | none =>
        Sum.inl ⟨false, warnings,
          some ("Navigate action ".toList ++ (toString (i + 1)).toList ++ " missing 'url'".toList)⟩
      | some url =>
        if strContains (pyLower url) ("javascript:".toList) ||
            strContains (pyLower url) ("data:".toList) ||
            strContains (pyLower url) ("file:".toList) then
          Sum.inl ⟨false, warnings,
            some ("Suspicious URL protocol in action ".toList ++ (toString (i + 1)).toList)⟩
        else if action_type = "execute_script".toList ∨ action_type = "eval".toList then
          Sum.inl ⟨false, warnings,
            some ("Action type '".toList ++ action_type ++ "' not allowed for security".toList)⟩
        else
          Sum.inr warnings
    else if action_type = "click".toList ∨ action_type = "type".toList then
      let warnings2 :=
        match action.target with
        | none => warnings ++
            [("Action ".toList ++ (toString (i + 1)).toList ++ " missing 'target' selector".toList)]
        | some _ => warnings
      if action_type = "execute_script".toList ∨ action_type = "eval".toList then
        Sum.inl ⟨false, warnings2,
          some ("Action type '".toList ++ action_type ++ "' not allowed for security".toList)⟩
      else
        Sum.inr warnings2
    else if action_type = "type".toList then
      let warnings2 :=
        if strContains (pyLower ((action.target).getD [])) ("password".toList) then
          warnings ++ [("Action ".toList ++ (toString (i + 1)).toList ++ " may enter sensitive data".toList)]
        else warnings
      if action_type = "execute_script".toList ∨ action_type = "eval".toList then
        Sum.inl ⟨false, warnings2,
          some ("Action type '".toList ++ action_type ++ "' not allowed for security".toList)⟩
      else
        Sum.inr warnings2
    else
      if action_type = "execute_script".toList ∨ action_type = "eval".toList then
        Sum.inl ⟨false, warnings,
          some ("Action type '".toList ++ action_type ++ "' not allowed for security".toList)⟩
      else
        Sum.inr warnings

def validateLoop : List Action → Nat → List Str → Sum ValidationResult (List Str)
  | [], _, warnings => Sum.inr warnings
  | action :: rest, i, warnings =>
    match validateStep action i warnings with
    | Sum.inl r => Sum.inl r
    | Sum.inr w2 => validateLoop rest (i + 1) w2

def validate_browser_actions (actions : List Action) : ValidationResult :=
  match validateLoop actions 0 [] with
  | Sum.inl r => r
  | Sum.inr warnings =>
    let warnings :=
      if actions.length > 100 then
        warnings ++ [("Large number of actions may take time to execute".toList)]
      else warnings
    ⟨true, warnings, none⟩

structure Plan where
  plan_id : Str
  actions : List Action
  requires_confirmation : Bool
  status : Str
deriving DecidableEq

/-- Controller state: the pending dict and the executed-plans log (as
`(plan_id, action_count)` pairs; timestamps omitted). -/
structure Controller where
  pending_actions : List (Str × Plan)
  executed_actions : List (Str × Nat)
deriving DecidableEq

def emptyController : Controller := ⟨[], []⟩

/-- Python `del m[k]`. -/
def adel {β : Type} : List (Str × β) → Str → List (Str × β)
  | [], _ => []
  | (k, v) :: t, key => if k = key then t else (k, v) :: adel t key

/-- `BrowserActionController.create_action_plan`; `plan_id` stands for the
md5-of-timestamp id the source generates. -/
def create_action_plan (ctrl : Controller) (plan_id : Str) (actions : List Action) :
    Controller × Plan :=
  let requires_confirmation := actions.any (fun a =>
    match a.type with
    | some t => decide (t ∈ SENSITIVE_ACTIONS)
    | none => false)
  let plan : Plan :=
    { plan_id := plan_id, actions := actions,
      requires_confirmation := requires_confirmation,
      status := if requires_confirmation then "pending_confirmation".toList else "ready".toList }
  let ctrl2 :=
    if requires_confirmation then
      { ctrl with pending_actions := aset ctrl.pending_actions plan_id plan }
    else ctrl
  (ctrl2, plan)

structure ExecResult where
  success : Bool
deriving DecidableEq

/-- `BrowserActionController._execute_plan`: the stub loop reads
`action["type"]` of every action, so a missing `type` raises `KeyError`,
which the blanket `except` turns into a failure result; the
`executed_actions` append after the loop is then skipped. -/
def execute_plan (ctrl : Controller) (plan : Plan) : Controller × ExecResult :=
  if plan.actions.all (fun a => a.type.isSome) then
    ({ ctrl with executed_actions :=
        ctrl.executed_actions ++ [(plan.plan_id, plan.actions.length)] },
     ⟨true⟩)
  else
    (ctrl, ⟨false⟩)

structure ConfirmResult where
  success : Bool
  error : Option Str
  status : Option Str
deriving DecidableEq

/-- `BrowserActionController.confirm_action`. -/
def confirm_action (ctrl : Controller) (plan_id : Str) (user_confirmation : Str) :
    Controller × ConfirmResult :=
  match alookup ctrl.pending_actions plan_id with
  | none => (ctrl, ⟨false, some ("Plan not found or already executed".toList), none⟩)
  | some plan =>
    if pyUpper user_confirmation ∈ ["CONFIRM".toList, "YES".toList, "PROCEED".toList] then
      let plan2 := { plan with status := "confirmed".toList }
      let er := execute_plan ctrl plan2
      ({ er.1 with pending_actions := adel er.1.pending_actions plan_id },
       ⟨true, none, some ("executed".toList)⟩)
    else
      ({ ctrl with pending_actions := adel ctrl.pending_actions plan_id },
       ⟨false, none, some ("cancelled".toList)⟩)

structure ExecuteResponse where
  success : Bool
  error : Option Str
  warnings : List Str
  status : Option Str
  plan_id : Option Str
deriving DecidableEq

/-- `execute_browser_action` (module entry point). -/
def execute_browser_action (ctrl : Controller) (actions : List Action)
    (auto_confirm : Bool) (plan_id : Str) : Controller × ExecuteResponse :=
  if actions.isEmpty then
    (ctrl, ⟨false, some ("No actions provided".toList), [], none, none⟩)
  else
    let validation := validate_browser_actions actions
    if validation.valid = false then
      (ctrl, ⟨false, validation.error, validation.warnings, none, none⟩)
    else
      let cp := create_action_plan ctrl plan_id actions
      if cp.2.requires_confirmation = false ∨ auto_confirm = true then
        let er := execute_plan cp.1 cp.2
        (er.1, ⟨er.2.success, none, [], none, some cp.2.plan_id⟩)
      else
        (cp.1, ⟨true, none, [], some ("pending_confirmation".toList), some cp.2.plan_id⟩)

/-! ### Lemmas on the controller -/

theorem alookup_adel_self {β : Type} {m : List (Str × β)} {k : Str}
    (hnd : (keys m).Nodup) : alookup (adel m k) k = none := by
  induction m with
  | nil => rfl
  | cons p t ih =>
    obtain ⟨k₁, v⟩ := p
    simp only [keys, List.map_cons, List.nodup_cons] at hnd
    by_cases h : k₁ = k
    · subst h
      have h2 : adel ((k₁, v) :: t) k₁ = t := by
        simp only [adel]
        rw [if_pos trivial]
      rw [h2]
      exact (alookup_eq_none_iff t k₁).2 hnd.1
    · have h2 : adel ((k₁, v) :: t) k = (k₁, v) :: adel t k := by
        simp only [adel]
        rw [if_neg h]
      rw [h2, alookup_cons_ne h]
      exact ih hnd.2

theorem execute_plan_pending (ctrl : Controller) (plan : Plan) :
    (execute_plan ctrl plan).1.pending_actions = ctrl.pending_actions := by
  unfold execute_plan
  by_cases h : plan.actions.all (fun a => a.type.isSome) = true
  · rw [if_pos h]
  · rw [if_neg h]

theorem confirm_action_some {ctrl : Controller} {pid : Str} {plan : Plan}
    (resp : Str) (hpend : alookup ctrl.pending_actions pid = some plan) :
    confirm_action ctrl pid resp =
      if pyUpper resp ∈ ["CONFIRM".toList, "YES".toList, "PROCEED".toList] then
        ({ (execute_plan ctrl { plan with status := "confirmed".toList }).1 with
            pending_actions :=
              adel (execute_plan ctrl
                { plan with status := "confirmed".toList }).1.pending_actions pid },
         ⟨true, none, some ("executed".toList)⟩)
      else
        ({ ctrl with pending_actions := adel ctrl.pending_actions pid },
         ⟨false, none, some ("cancelled".toList)⟩) := by
  unfold confirm_action
  rw [hpend]

theorem confirm_action_none {ctrl : Controller} {pid : Str} (resp : Str)
    (h : alookup ctrl.pending_actions pid = none) :
    confirm_action ctrl pid resp =
      (ctrl, ⟨false, some ("Plan not found or already executed".toList), none⟩) := by
  unfold confirm_action
  rw [h]

/-- C2: for a registered plan, a response whose uppercasing is CONFIRM, YES
or PROCEED marks the plan confirmed, invokes execution and removes it from
the pending set; any other response cancels without executing and removes it
too; an unknown plan id yields the not-found failure result. -/
theorem C2_confirm_action (ctrl : Controller)
    (hnd : (keys ctrl.pending_actions).Nodup) (pid : Str) (plan : Plan)
    (resp : Str) (hpend : alookup ctrl.pending_actions pid = some plan)
    (pid2 : Str) (hmiss : alookup ctrl.pending_actions pid2 = none) :
    (pyUpper resp ∈ ["CONFIRM".toList, "YES".toList, "PROCEED".toList] →
      confirm_action ctrl pid resp =
        ({ (execute_plan ctrl { plan with status := "confirmed".toList }).1 with
            pending_actions :=
              adel (execute_plan ctrl
                { plan with status := "confirmed".toList }).1.pending_actions pid },
         ⟨true, none, some ("executed".toList)⟩) ∧
      alookup (confirm_action ctrl pid resp).1.pending_actions pid = none) ∧
    (pyUpper resp ∉ ["CONFIRM".toList, "YES".toList, "PROCEED".toList] →
      confirm_action ctrl pid resp =
        ({ ctrl with pending_actions := adel ctrl.pending_actions pid },
         ⟨false, none, some ("cancelled".toList)⟩) ∧
      alookup (confirm_action ctrl pid resp).1.pending_actions pid = none) ∧
    confirm_action ctrl pid2 resp =
      (ctrl, ⟨false, some ("Plan not found or already executed".toList), none⟩) := by
  refine ⟨?_, ?_, confirm_action_none resp hmiss⟩
  · intro hc
    have heq := confirm_action_some resp hpend
    rw [if_pos hc] at heq
    refine ⟨heq, ?_⟩
    rw [heq]
    show alookup (adel (execute_plan ctrl
      { plan with status := "confirmed".toList }).1.pending_actions pid) pid = none
    rw [execute_plan_pending]
    exact alookup_adel_self hnd
  · intro hc
    have heq := confirm_action_some resp hpend
    rw [if_neg hc] at heq
    refine ⟨heq, ?_⟩
    rw [heq]
    exact alookup_adel_self hnd

/-- Witness for C2 on a one-plan controller: confirmation with the
mixed-case response yEs, and the not-found error for an unknown id. -/
theorem C2_confirm_action_witness :
    (confirm_action
        ⟨[("p1".toList, ⟨"p1".toList, [⟨some ("login".toList), none, none⟩], true,
            "pending_confirmation".toList⟩)], []⟩
        ("p1".toList) ("yEs".toList)).2.status = some ("executed".toList) ∧
    alookup (confirm_action
        ⟨[("p1".toList, ⟨"p1".toList, [⟨some ("login".toList), none, none⟩], true,
            "pending_confirmation".toList⟩)], []⟩
        ("p1".toList) ("yEs".toList)).1.pending_actions ("p1".toList) = none ∧
    confirm_action
        ⟨[("p1".toList, ⟨"p1".toList, [⟨some ("login".toList), none, none⟩], true,
            "pending_confirmation".toList⟩)], []⟩
        ("zz".toList) ("yEs".toList) =
      (⟨[("p1".toList, ⟨"p1".toList, [⟨some ("login".toList), none, none⟩], true,
            "pending_confirmation".toList⟩)], []⟩,
       ⟨false, some ("Plan not found or already executed".toList), none⟩) := by
  have h := C2_confirm_action
    ⟨[("p1".toList, ⟨"p1".toList, [⟨some ("login".toList), none, none⟩], true,
        "pending_confirmation".toList⟩)], []⟩
    (by decide) ("p1".toList)
    ⟨"p1".toList, [⟨some ("login".toList), none, none⟩], true,
      "pending_confirmation".toList⟩
    ("yEs".toList) (by decide) ("zz".toList) (by decide)
  have h1 := h.1 (by decide)
  refine ⟨?_, h1.2, h.2.2⟩
  rw [h1.1]

/-- C3: the claim is false of the code — with `auto_confirm` set and a
sensitive action, `execute_browser_action` executes the plan but
`create_action_plan` has already registered it in `pending_actions` and the
auto-confirm branch never removes it, so the plan is still pending after the
call. -/
theorem C3_auto_confirm_leaves_pending :
    (execute_browser_action emptyController [⟨some ("login".toList), none, none⟩]
        true ("p1".toList)).2.success = true ∧
    alookup (execute_browser_action emptyController
        [⟨some ("login".toList), none, none⟩] true ("p1".toList)).1.pending_actions
        ("p1".toList) =
      some ⟨"p1".toList, [⟨some ("login".toList), none, none⟩], true,
        "pending_confirmation".toList⟩ := by
  constructor
  · decide
  · decide

/-- C4: the claim is false of the code — the `elif action_type == "type"`
branch carrying the sensitive-data warning is dead (the preceding
`elif action_type in ["click", "type"]` already matches every `type`
action), so a `type` action targeting `#password` validates with no
warning at all. -/
theorem C4_password_warning_unreachable :
    validate_browser_actions [⟨some ("type".toList), none, some ("#password".toList)⟩] =
      { valid := true, warnings := [], error := none } := by
  decide

/-! ### C5: early validation failures keep accumulated warnings -/

theorem validateStep_inl {act : Action} {i : Nat} {ws : List Str}
    {r : ValidationResult} (h : validateStep act i ws = Sum.inl r) :
    r.valid = false ∧ r.error.isSome = true ∧ r.warnings = ws := by
  obtain ⟨ty, url, tgt⟩ := act
  cases ty with
  | none =>
    unfold validateStep at h
    injection h with h
    subst h
    exact ⟨rfl, rfl, rfl⟩
  | some action_type =>
    unfold validateStep at h
    simp only [] at h
    repeat' split at h
    all_goals try (injection h with h; subst h; exact ⟨rfl, rfl, rfl⟩)
    all_goals try exact Sum.noConfusion h
    all_goals exfalso
    all_goals (try exact ‹¬(action_type = "click".toList ∨ action_type = "type".toList)› (Or.inr ‹action_type = "type".toList›))
    all_goals (rcases ‹action_type = "click".toList ∨ action_type = "type".toList› with h2 | h2 <;> subst h2 <;> rcases ‹_ = "execute_script".toList ∨ _ = "eval".toList› with h5 | h5 <;> exact absurd h5 (by decide))

theorem validateLoop_inl :
    ∀ (acts : List Action) (i : Nat) (ws : List Str) (r : ValidationResult),
      validateLoop acts i ws = Sum.inl r →
      ∃ pre act post ws2,
        acts = pre ++ act :: post ∧
        validateLoop pre i ws = Sum.inr ws2 ∧
        validateStep act (i + pre.length) ws2 = Sum.inl r := by
  intro acts
  induction acts with
  | nil =>
    intro i ws r h
    exact Sum.noConfusion h
  | cons a rest ih =>
    intro i ws r h
    unfold validateLoop at h
    cases hstep : validateStep a i ws with
    | inl r0 =>
      rw [hstep] at h
      injection h with h
      subst h
      refine ⟨[], a, rest, ws, rfl, rfl, ?_⟩
      rw [show i + List.length [] = i from rfl]
      exact hstep
    | inr w2 =>
      rw [hstep] at h
      rcases ih (i + 1) w2 r h with ⟨pre, act, post, ws2, hsplit, hloop, hstep2⟩
      refine ⟨a :: pre, act, post, ws2, by rw [hsplit]; rfl, ?_, ?_⟩
      · show validateLoop (a :: pre) i ws = Sum.inr ws2
        unfold validateLoop
        rw [hstep]
        exact hloop
      · rw [show i + (a :: pre).length = (i + 1) + pre.length from by
          simp only [List.length_cons]
          omega]
        exact hstep2

/-- C5 (amended): a hard validation failure makes
`validate_browser_actions` return immediately with `valid = false` and the
specific error, but the warnings collected from the actions before the
failing one are retained in the result, not discarded: the result is exactly
the failing step's result over the clean prefix's accumulated warnings. -/
theorem C5_hard_failure_retains_warnings (acts : List Action)
    (r : ValidationResult) (h : validate_browser_actions acts = r)
    (hv : r.valid = false) :
    r.error.isSome = true ∧
    ∃ pre act post ws,
      acts = pre ++ act :: post ∧
      validateLoop pre 0 [] = Sum.inr ws ∧
      validateStep act pre.length ws = Sum.inl r ∧
      r.warnings = ws := by
  unfold validate_browser_actions at h
  cases hloop : validateLoop acts 0 [] with
  | inl r0 =>
    rw [hloop] at h
    simp only [] at h
    subst h
    rcases validateLoop_inl acts 0 [] r0 hloop with ⟨pre, act, post, ws, hsplit, hpre, hstep⟩
    obtain ⟨-, herr, hws⟩ := validateStep_inl hstep
    rw [show (0 : Nat) + pre.length = pre.length from by omega] at hstep
    exact ⟨herr, pre, act, post, ws, hsplit, hpre, hstep, hws⟩
  | inr ws =>
    rw [hloop] at h
    simp only [] at h
    subst h
    exact absurd hv (by simp)

/-- C5, the claim as stated is false: a click action without a target
followed by an `eval` action fails hard on the `eval`, yet the returned
result still carries the missing-target warning of action 1 — the warnings
are not discarded. -/
theorem C5_counterexample :
    validate_browser_actions
        [⟨some ("click".toList), none, none⟩, ⟨some ("eval".toList), none, none⟩] =
      { valid := false,
        warnings := [("Action 1 missing 'target' selector".toList)],
        error := some ("Action type 'eval' not allowed for security".toList) } := by
  decide

/-- Witness for C5, the amended theorem applied to the counterexample's
action list. -/
theorem C5_hard_failure_retains_warnings_witness :
    (validate_browser_actions
        [⟨some ("click".toList), none, none⟩,
         ⟨some ("eval".toList), none, none⟩]).error.isSome = true ∧
    (validate_browser_actions
        [⟨some ("click".toList), none, none⟩,
         ⟨some ("eval".toList), none, none⟩]).warnings =
      [("Action 1 missing 'target' selector".toList)] := by
  refine ⟨(C5_hard_failure_retains_warnings
    [⟨some ("click".toList), none, none⟩, ⟨some ("eval".toList), none, none⟩]
    _ rfl (by decide)).1, ?w⟩
  decide

end HipaaLLM